import Mathlib

/-!
Verification of the Wave Function Collapse terrain engine (`public/wfc.js`).

The engine is embedded shallowly: each JS function becomes a Lean definition
over an explicit `GridState`.  Possibility sets (`Uint8Array` bitmasks of
`N_TILES = 23` bits in the source) are embedded as natural numbers read
through `Nat.testBit`; JS numbers are embedded as exact fractions (`Frac`),
and `Math.random()` as a stream `rng : Nat → Frac` of draws in `[0, 1)`
consumed in program order.  JS arrays used as LIFO worklists (`push` to the
end, `pop` from the end) are embedded as Lean lists with the JS *end* at
the list *head*, so pop order coincides.
-/

namespace WFC

/-! ### Exact fraction arithmetic

The draws of `Math.random()` and the tile weights are numbers; the
embedding computes with unreduced fractions `num / den`.  Every fraction
built by the engine has a positive denominator; the comparison `Frac.ble`
is the numeric `≤` under that convention. -/

/-- An unreduced fraction `num / den`. -/
structure Frac where
  num : Int
  den : Nat
deriving DecidableEq, Repr

/-- Embed an integer. -/
def Frac.ofInt (n : Int) : Frac := ⟨n, 1⟩

/-- Fraction addition. -/
def Frac.add (a b : Frac) : Frac := ⟨a.num * b.den + b.num * a.den, a.den * b.den⟩

/-- Fraction subtraction. -/
def Frac.sub (a b : Frac) : Frac := ⟨a.num * b.den - b.num * a.den, a.den * b.den⟩

/-- Fraction multiplication. -/
def Frac.mul (a b : Frac) : Frac := ⟨a.num * b.num, a.den * b.den⟩

/-- `a ≤ b`, by cross multiplication (for positive denominators). -/
def Frac.ble (a b : Frac) : Bool := a.num * (b.den : Int) ≤ b.num * (a.den : Int)

/-- `Math.floor`. -/
def Frac.floor (a : Frac) : Int := Int.fdiv a.num a.den

/-- A fraction lying in `[0, 1)`, the range of `Math.random()`. -/
def Frac.isUnit01 (q : Frac) : Prop := 0 < q.den ∧ 0 ≤ q.num ∧ q.num < (q.den : Int)

/-- The four terrain categories of a tile (`tile.terrain` in the source). -/
inductive Terrain where
  | sea
  | ground
  | mountain
  | house
deriving DecidableEq, Repr

/-- A tile value `{ terrain, z }`. -/
structure Tile where
  terrain : Terrain
  z : Nat
deriving DecidableEq, Repr

/-- `buildTileCatalogue()`: sea at z=0, ground z=0..5, mountain z=6..10,
house z=0..10, in exactly this order. -/
def buildTileCatalogue : List Tile :=
  [⟨Terrain.sea, 0⟩]
    ++ ((List.range 6).map fun z => ⟨Terrain.ground, z⟩)
    ++ ((List.range 5).map fun k => ⟨Terrain.mountain, 6 + k⟩)
    ++ ((List.range 11).map fun z => ⟨Terrain.house, z⟩)

/-- `ALL_TILES`. -/
def allTiles : List Tile := buildTileCatalogue

/-- `N_TILES`. -/
def nTiles : Nat := allTiles.length

/-- Tile lookup `ALL_TILES[i]` (the default is never reached for `i < nTiles`). -/
def tileAtIdx (i : Nat) : Tile := allTiles.getD i ⟨Terrain.sea, 0⟩

/-- `cardinalCompatible(a, b)`: true when tile `a` may sit cardinally adjacent
to tile `b`, transcribed clause by clause from the source. -/
def cardinalCompatible (a b : Tile) : Bool :=
  match a.terrain with
  | Terrain.sea =>
    match b.terrain with
    | Terrain.sea => true
    | Terrain.ground => b.z == 0
    | _ => false
  | Terrain.ground =>
    match b.terrain with
    | Terrain.sea => a.z == 0
    | Terrain.ground => true
    | Terrain.mountain => a.z ≥ 5
    | Terrain.house => true
  | Terrain.mountain => b.z ≥ 5
  | Terrain.house =>
    match b.terrain with
    | Terrain.sea => a.z == 0
    | _ => true

/-- `CARDINAL_ALLOWED[i].has(j)`: the precomputed adjacency table is just the
predicate evaluated on the catalogue entries. -/
def cardinalAllowed (i j : Nat) : Bool :=
  cardinalCompatible (tileAtIdx i) (tileAtIdx j)

/-! ### Bit-set helpers (`bitsNew`, `bitsAll`, ...) over `Nat` masks -/

/-- `bitsHas(b, i)`. -/
def bitsHas (b i : Nat) : Bool := b.testBit i

/-- `bitsSet(b, i)`. -/
def bitsSet (b i : Nat) : Nat := b ||| 2 ^ i

/-- `bitsClear(b, i)`: clear one bit, leaving all others alone. -/
def bitsClear (b i : Nat) : Nat := if b.testBit i then b ^^^ 2 ^ i else b

/-- `bitsAll()`: set each of the `N_TILES` bits in turn. -/
def bitsAll : Nat := (List.range nTiles).foldl bitsSet 0

/-- `bitsCount(b)`: population count of the low `N_TILES` bits. -/
def bitsCount (b : Nat) : Nat := (List.range nTiles).countP (fun i => bitsHas b i)

/-- The ascending list of set bit indices; `bitsForEach` visits exactly this
list in this order. -/
def bitsList (b : Nat) : List Nat := (List.range nTiles).filter (fun i => bitsHas b i)

/-! ### Grid / wave state -/

/-- The mutable state of a `WFCGrid`: `wave` holds the per-cell bitmask,
`collapsed` the per-cell tile index (`-1` while in superposition), and
`dirty` the animation bookkeeping set (insertion-ordered, like a JS `Set`). -/
structure GridState where
  width : Nat
  height : Nat
  wave : Nat → Nat
  collapsed : Nat → Int
  dirty : List Nat

/-- `width * height`. -/
def GridState.size (s : GridState) : Nat := s.width * s.height

/-- Replace one cell's wave. -/
def updWave (s : GridState) (i : Nat) (m : Nat) : GridState :=
  { s with wave := fun j => if j = i then m else s.wave j }

/-- Replace one cell's collapsed marker. -/
def updCollapsed (s : GridState) (i : Nat) (v : Int) : GridState :=
  { s with collapsed := fun j => if j = i then v else s.collapsed j }

/-- JS `Set.add`: append when not yet present. -/
def setAdd (l : List Nat) (i : Nat) : List Nat := if i ∈ l then l else l ++ [i]

/-- `_removeHouseTiles(idx)`: clear every house-terrain bit of cell `idx`. -/
def removeHouseTiles (s : GridState) (idx : Nat) : GridState :=
  updWave s idx
    ((List.range nTiles).foldl
      (fun m t => if (tileAtIdx t).terrain = Terrain.house then bitsClear m t else m)
      (s.wave idx))

/-- `reset()` as run by the constructor `new WFCGrid(width, height)`:
all cells get the full mask and `-1`, then every boundary cell has its
house bits removed, scanning `y` then `x` exactly like the nested loops. -/
def resetState (w h : Nat) : GridState :=
  let s0 : GridState := ⟨w, h, fun _ => bitsAll, fun _ => -1, []⟩
  (List.range h).foldl
    (fun s y =>
      (List.range w).foldl
        (fun s x =>
          if x = 0 ∨ y = 0 ∨ x = w - 1 ∨ y = h - 1 then
            removeHouseTiles s (y * w + x)
          else s)
        s)
    s0

/-- `_cardinalNeighbours(idx)`: left, right, up, down, clipped at boundaries,
in exactly this order. -/
def cardinalNeighbours (s : GridState) (idx : Nat) : List Nat :=
  let x := idx % s.width
  let y := idx / s.width
  (if 0 < x then [y * s.width + (x - 1)] else [])
    ++ (if x < s.width - 1 then [y * s.width + (x + 1)] else [])
    ++ (if 0 < y then [(y - 1) * s.width + x] else [])
    ++ (if y < s.height - 1 then [(y + 1) * s.width + x] else [])

/-- `_allNeighbours(idx)`: the eight Moore neighbours, `dy` outer and `dx`
inner from `-1` to `1`, clipped at boundaries. -/
def allNeighbours (s : GridState) (idx : Nat) : List Nat :=
  let x := idx % s.width
  let y := idx / s.width
  (([-1, 0, 1] : List Int).flatMap fun dy =>
    (([-1, 0, 1] : List Int).flatMap fun dx =>
      if dx = 0 ∧ dy = 0 then []
      else
        let nx : Int := (x : Int) + dx
        let ny : Int := (y : Int) + dy
        if 0 ≤ nx ∧ nx < (s.width : Int) ∧ 0 ≤ ny ∧ ny < (s.height : Int) then
          [ny.toNat * s.width + nx.toNat]
        else []))

/-- `_enforceHouseConstraints(idx, wave)`: returns the updated `wave` mask
(the source mutates the passed bitset in place, clearing bits only). -/
def enforceHouseConstraints (s : GridState) (idx : Nat) (w0 : Nat) : Nat :=
  let x := idx % s.width
  let y := idx / s.width
  let atEdge := x = 0 ∨ y = 0 ∨ x = s.width - 1 ∨ y = s.height - 1
  (List.range nTiles).foldl
    (fun w t =>
      if ¬ bitsHas w t then w
      else if (tileAtIdx t).terrain ≠ Terrain.house then w
      else if atEdge then bitsClear w t
      else
        let allNeigh := allNeighbours s idx
        let foundUniform :=
          [Terrain.sea, Terrain.ground, Terrain.mountain].any fun tr =>
            allNeigh.all fun n =>
              if s.collapsed n ≠ -1 then
                (tileAtIdx (s.collapsed n).toNat).terrain == tr
              else
                (bitsList (s.wave n)).any fun nt => (tileAtIdx nt).terrain == tr
        if foundUniform then w else bitsClear w t)
    w0

/-! ### Entropy & selection -/

/-- The scan loop of `_pickLowestEntropy`: walk the remaining cells carrying
the best count so far (`none` plays `Infinity`) and the candidate list;
`none` is returned at the first un-collapsed cell with a zero count. -/
def pickLoop (s : GridState) : List Nat → Option Nat → List Nat → Option (Option Nat × List Nat)
  | [], best, cands => some (best, cands)
  | i :: rest, best, cands =>
    if s.collapsed i ≠ -1 then pickLoop s rest best cands
    else
      let c := bitsCount (s.wave i)
      if c = 0 then none
      else
        match best with
        | none => pickLoop s rest (some c) [i]
        | some b =>
          if c < b then pickLoop s rest (some c) [i]
          else if c = b then pickLoop s rest (some b) (cands ++ [i])
          else pickLoop s rest (some b) cands

/-- `_pickLowestEntropy()`: `-1` signals a contradiction, `-2` that every
cell is collapsed, otherwise a uniformly drawn tied candidate. -/
def pickLowestEntropy (s : GridState) (rand : Frac) : Int :=
  match pickLoop s (List.range s.size) none [] with
  | none => -1
  | some (_, cands) =>
    if cands.isEmpty then -2
    else (cands.getD ((rand.mul (Frac.ofInt cands.length)).floor).toNat 0 : Int)

/-! ### Collapse -/

/-- The weight table of `_collapseCell` (`0.3` and `0.6` written as exact
fractions). -/
def tileWeight (i : Nat) : Frac :=
  let t := tileAtIdx i
  match t.terrain with
  | Terrain.sea => Frac.ofInt 6
  | Terrain.ground => Frac.ofInt (8 - (t.z : Int))
  | Terrain.mountain => (Frac.ofInt 2).add ((Frac.ofInt (10 - (t.z : Int))).mul ⟨3, 10⟩)
  | Terrain.house => ⟨6, 10⟩

/-- The sampling loop of `_collapseCell`: subtract weights until the running
draw drops to `≤ 0`; `chosen` starts at `options[0]`. -/
def sampleGo : List (Nat × Frac) → Frac → Nat → Nat
  | [], _, chosen => chosen
  | (o, w) :: rest, r, chosen =>
    let r' := r.sub w
    if r'.ble (Frac.ofInt 0) then o else sampleGo rest r' chosen

/-- The weighting and sampling of `_collapseCell`: weigh the remaining
options, scale the draw by the weight total, and run the sampling loop. -/
def collapsePick (options : List Nat) (rand : Frac) : Nat :=
  let weights := options.map tileWeight
  let total := weights.foldl Frac.add (Frac.ofInt 0)
  let r := rand.mul total
  sampleGo (options.zip weights) r (options.headD 0)

/-- `_collapseCell(idx)`: weighted random collapse; returns the new state and
`false` (leaving the state untouched) when the possibility set is empty. -/
def collapseCell (s : GridState) (idx : Nat) (rand : Frac) : GridState × Bool :=
  let options := bitsList (s.wave idx)
  if options.isEmpty then (s, false)
  else
    let chosen := collapsePick options rand
    let s1 := updWave s idx (bitsSet 0 chosen)
    let s2 := updCollapsed s1 idx (chosen : Int)
    (⟨s2.width, s2.height, s2.wave, s2.collapsed, setAdd s2.dirty idx⟩, true)

/-! ### Constraint propagation -/

/-- The cardinal filter of `_propagate`: keep a neighbour tile only when some
tile still possible at `current` is compatible with it. -/
def cardFilter (s : GridState) (current nIdx : Nat) : Nat :=
  (bitsList (s.wave nIdx)).foldl
    (fun nw nTile =>
      if (bitsList (s.wave current)).any (fun cTile => cardinalAllowed cTile nTile) then
        bitsSet nw nTile
      else nw)
    0

/-- The shared tail of both neighbour passes of `_propagate`: when the fresh
mask differs from the stored one, install it, record the cell as dirty and
changed, collapse it implicitly when a single bit remains (the assignment
loop is `bitsForEach`, hence the fold), and push it onto the worklist. -/
def applyNeighbourUpdate (s : GridState) (nIdx : Nat) (newWave : Nat)
    (stack changed : List Nat) : GridState × List Nat × List Nat :=
  if s.wave nIdx = newWave then (s, stack, changed)
  else
    let s1 := updWave s nIdx newWave
    let s2 : GridState := ⟨s1.width, s1.height, s1.wave, s1.collapsed, setAdd s1.dirty nIdx⟩
    let changed1 := setAdd changed nIdx
    let s3 :=
      if bitsCount newWave = 1 then
        updCollapsed s2 nIdx
          ((bitsList newWave).foldl (fun (_ : Int) (t : Nat) => (t : Int)) (s2.collapsed nIdx))
      else s2
    (s3, nIdx :: stack, changed1)

/-- One neighbour visit of either pass of `_propagate`: skip collapsed
neighbours, otherwise recompute the neighbour's mask with `upd` and apply
the shared install/collapse/push tail. -/
def neighbourStep (upd : GridState → Nat → Nat)
    (acc : GridState × List Nat × List Nat) (nIdx : Nat) : GridState × List Nat × List Nat :=
  if acc.1.collapsed nIdx ≠ -1 then acc
  else applyNeighbourUpdate acc.1 nIdx (upd acc.1 nIdx) acc.2.1 acc.2.2

/-- The cardinal-adjacency pass of one `_propagate` iteration: the fresh
neighbour mask is the cardinal filter, further narrowed by the house rule. -/
def processCardinal (s : GridState) (current : Nat) (stack changed : List Nat) :
    GridState × List Nat × List Nat :=
  (cardinalNeighbours s current).foldl
    (neighbourStep (fun t n => enforceHouseConstraints t n (cardFilter t current n)))
    (s, stack, changed)

/-- The all-8-neighbour house pass of one `_propagate` iteration: the fresh
neighbour mask is the stored one narrowed by the house rule. -/
def processHouse (s : GridState) (current : Nat) (stack changed : List Nat) :
    GridState × List Nat × List Nat :=
  (allNeighbours s current).foldl
    (neighbourStep (fun t n => enforceHouseConstraints t n (t.wave n)))
    (s, stack, changed)

/-- The worklist loop of `_propagate`, with explicit fuel.  The returned flag
is `true` exactly when the worklist drained (it is proved below that the
fuel chosen by `propagateRun` always suffices). -/
def propagateAux : Nat → GridState → List Nat → List Nat → GridState × List Nat × Bool
  | fuel, s, stack, changed =>
    match stack with
    | [] => (s, changed, true)
    | current :: rest =>
      match fuel with
      | 0 => (s, changed, false)
      | fuel' + 1 =>
        let r1 := processCardinal s current rest changed
        let r2 := processHouse r1.1 current r1.2.1 r1.2.2
        propagateAux fuel' r2.1 r2.2.1 r2.2.2

/-- Total possibility count of the grid, the core of the termination measure. -/
def totalBits (s : GridState) : Nat :=
  ((List.range s.size).map fun i => bitsCount (s.wave i)).sum

/-- `_propagate(seeds)`: seed the worklist (JS array end = list head, hence
the reverse) and the changed set, then drain. -/
def propagateRun (s : GridState) (seeds : List Nat) : GridState × List Nat × Bool :=
  propagateAux (13 * totalBits s + seeds.length + 1) s seeds.reverse
    (seeds.foldl setAdd [])

/-! ### The run generator -/

/-- The four event variants yielded by `run`. -/
inductive WEvent where
  | collapse (idx : Nat) (tile : Int)
  | propagate (changed : List Nat)
  | contradiction (idx : Int)
  | done
deriving DecidableEq, Repr

/-- The terminal events. -/
def isTerminal : WEvent → Bool
  | WEvent.contradiction _ => true
  | WEvent.done => true
  | _ => false

/-- The main `while (true)` loop of `run`, recorded as a list of events
paired with the state right after each yield.  `k` indexes the next random
draw; a pick that returns a cell consumes one draw, the following collapse
consumes the next.  The fuel chosen by `runSimT` is proved sufficient below. -/
def runLoop : Nat → GridState → (Nat → Frac) → Nat → List (WEvent × GridState)
  | 0, _, _, _ => []
  | fuel + 1, s, rng, k =>
    let next := pickLowestEntropy s (rng k)
    if next = -2 then [(WEvent.done, s)]
    else if next = -1 then [(WEvent.contradiction (-1), s)]
    else
      let nIdx := next.toNat
      let c := collapseCell s nIdx (rng (k + 1))
      if c.2 = false then [(WEvent.contradiction next, c.1)]
      else
        let p := propagateRun c.1 [nIdx]
        (WEvent.collapse nIdx (c.1.collapsed nIdx), c.1)
          :: (WEvent.propagate p.2.1, p.1)
          :: runLoop fuel p.1 rng (k + 2)

/-- `run(startIdx)`: collapse the start cell, propagate from it, then loop.
Events are paired with the state at the moment they are yielded. -/
def runSimT (s0 : GridState) (startIdx : Nat) (rng : Nat → Frac) : List (WEvent × GridState) :=
  let c := collapseCell s0 startIdx (rng 0)
  if c.2 = false then [(WEvent.contradiction startIdx, c.1)]
  else
    let p := propagateRun c.1 [startIdx]
    (WEvent.collapse startIdx (c.1.collapsed startIdx), c.1)
      :: (WEvent.propagate p.2.1, p.1)
      :: runLoop (c.1.width * c.1.height + 1) p.1 rng 1

/-- The bare event sequence of a run. -/
def runEvents (s0 : GridState) (startIdx : Nat) (rng : Nat → Frac) : List WEvent :=
  (runSimT s0 startIdx rng).map Prod.fst

/-! ### Accessors -/

/-- `getTile(idx)`. -/
def getTile (s : GridState) (idx : Nat) : Option Tile :=
  if s.collapsed idx = -1 then none else some (tileAtIdx (s.collapsed idx).toNat)

/-- `getEntropy(idx)`. -/
def getEntropy (s : GridState) (idx : Nat) : Nat := bitsCount (s.wave idx)

/-- `isCollapsed(idx)`. -/
def isCollapsed (s : GridState) (idx : Nat) : Bool := s.collapsed idx ≠ -1

/-- `totalCollapsed()`. -/
def totalCollapsed (s : GridState) : Nat :=
  (List.range s.size).countP (fun i => s.collapsed i ≠ -1)

/-! ### Verification-side definitions -/

/-- `a` is a bitwise subset of `b`. -/
def Submask (a b : Nat) : Prop := ∀ j, a.testBit j = true → b.testBit j = true

/-- Every wave mask is representable in the `N_TILES`-bit bitset. -/
def WFWaves (s : GridState) : Prop := ∀ i, s.wave i < 2 ^ nTiles

/-- The collapsed-cell invariant: a collapsed cell carries a real tile index
and its possibility set is exactly the corresponding singleton. -/
def InvS (s : GridState) : Prop :=
  ∀ i, s.collapsed i ≠ -1 →
    0 ≤ s.collapsed i ∧ (s.collapsed i).toNat < nTiles ∧
    s.wave i = 2 ^ (s.collapsed i).toNat

/-- Collapsed cells survive untouched from `s` to `s'`. -/
def Preserved (s s' : GridState) : Prop :=
  ∀ i, s.collapsed i ≠ -1 → s'.collapsed i = s.collapsed i ∧ s'.wave i = s.wave i

/-- Every cell's possibility set in `s'` is a subset of the one in `s`. -/
def ShrinkW (s s' : GridState) : Prop := ∀ i, Submask (s'.wave i) (s.wave i)

/-- A stream of draws that all lie in `[0, 1)`, as `Math.random()` produces. -/
def ValidRng (rng : Nat → Frac) : Prop := ∀ n, (rng n).isUnit01

/-- The number of un-collapsed cells, the termination measure of `run`. -/
def uncollapsedCount (s : GridState) : Nat :=
  (List.range s.size).countP (fun i => s.collapsed i = -1)

/-- The step relation between consecutive states observed during a run:
collapsed cells survive untouched and possibility sets only shrink. -/
def StepRel (s s' : GridState) : Prop := Preserved s s' ∧ ShrinkW s s'

/-- The running minimum of `_pickLowestEntropy` over a scanned prefix:
`none` plays `Infinity`. -/
def minCnt (s : GridState) (l : List Nat) : Option Nat :=
  l.foldl
    (fun acc i =>
      if s.collapsed i = -1 then
        some (match acc with
          | none => bitsCount (s.wave i)
          | some b => min b (bitsCount (s.wave i)))
      else acc)
    none

/-- The un-collapsed cells of a scanned prefix whose count equals `m`, in
scan order. -/
def tiesOf (s : GridState) (l : List Nat) (m : Nat) : List Nat :=
  l.filter (fun i => s.collapsed i = -1 ∧ bitsCount (s.wave i) = m)

/-! ### A concrete recorded run (3×3 grid, clicked at the centre cell) -/

/-- A concrete finite stream of `Math.random()` draws, all in `[0, 1)`. -/
def exRngList : List Frac :=
  [⟨523, 586⟩, ⟨3, 16⟩, ⟨1, 26⟩, ⟨0, 1⟩, ⟨5, 7⟩, ⟨0, 1⟩, ⟨1, 7⟩, ⟨0, 1⟩, ⟨5, 7⟩,
    ⟨0, 1⟩, ⟨10, 39⟩, ⟨3, 4⟩, ⟨10, 39⟩, ⟨0, 1⟩, ⟨10, 39⟩, ⟨0, 1⟩, ⟨10, 39⟩]

/-- The draw stream of the concrete run (`0` past the recorded prefix). -/
def exRng : Nat → Frac := fun n => exRngList.getD n ⟨0, 1⟩

/-- The concrete run: a fresh 3×3 grid, `run(4)` (the centre cell), under the
recorded draws. -/
def exRun : List (WEvent × GridState) := runSimT (resetState 3 3) 4 exRng

/-- Membership of a draw in `[0, 1)` is decidable. -/
instance (q : Frac) : Decidable q.isUnit01 :=
  inferInstanceAs (Decidable (_ ∧ _ ∧ _))

/-! ### Basic bitset lemmas -/

theorem Submask.refl (a : Nat) : Submask a a := fun _ h => h

theorem Submask.trans {a b c : Nat} (h1 : Submask a b) (h2 : Submask b c) : Submask a c :=
  fun j hj => h2 j (h1 j hj)

theorem testBit_bitsSet (b i j : Nat) :
    (bitsSet b i).testBit j = (b.testBit j || decide (i = j)) := by
  simp [bitsSet, Nat.testBit_or, Nat.testBit_two_pow]

theorem testBit_bitsClear (b i j : Nat) :
    (bitsClear b i).testBit j = (b.testBit j && !decide (i = j)) := by
  unfold bitsClear
  by_cases h : b.testBit i
  · by_cases hij : i = j
    · subst hij; simp [h, Nat.testBit_xor, Nat.testBit_two_pow]
    · simp [h, Nat.testBit_xor, Nat.testBit_two_pow, hij]
  · by_cases hij : i = j
    · subst hij; simp [h]
    · simp [h, hij]

theorem submask_bitsClear (b i : Nat) : Submask (bitsClear b i) b := by
  intro j hj
  rw [testBit_bitsClear] at hj
  exact (Bool.and_eq_true_iff.mp hj).1

theorem submask_lt {a b n : Nat} (h : Submask a b) (hb : b < 2 ^ n) : a < 2 ^ n := by
  apply Nat.lt_pow_two_of_testBit
  intro i hi
  by_contra hne
  have : a.testBit i = true := by
    cases hq : a.testBit i
    · exact absurd hq hne
    · rfl
  have := h i this
  rw [Nat.testBit_lt_two_pow (Nat.lt_of_lt_of_le hb (Nat.pow_le_pow_right (by omega) hi))] at this
  exact Bool.false_ne_true this

theorem mem_bitsList {b j : Nat} : j ∈ bitsList b ↔ j < nTiles ∧ b.testBit j = true := by
  simp [bitsList, List.mem_filter, List.mem_range, bitsHas]

theorem bitsCount_eq_length (b : Nat) : bitsCount b = (bitsList b).length := by
  simp [bitsCount, bitsList, List.countP_eq_length_filter]

theorem bitsCount_le_of_submask {a b : Nat} (h : Submask a b) : bitsCount a ≤ bitsCount b := by
  exact List.countP_mono_left (fun x _ hx => h x hx)

theorem countP_lt_of_witness {l : List Nat} {p q : Nat → Bool}
    (hpq : ∀ a ∈ l, p a = true → q a = true) {j : Nat} (hj : j ∈ l)
    (hqj : q j = true) (hpj : p j = false) : l.countP p < l.countP q := by
  induction l with
  | nil => cases hj
  | cons a t ih =>
    rcases List.mem_cons.mp hj with rfl | hjt
    · have hle : t.countP p ≤ t.countP q :=
        List.countP_mono_left (fun x hx => hpq x (List.mem_cons_of_mem _ hx))
      simp [List.countP_cons, hpj, hqj]
      omega
    · rw [List.countP_cons, List.countP_cons]
      have := ih (fun x hx => hpq x (List.mem_cons_of_mem _ hx)) hjt
      have hmono : (if p a = true then 1 else 0) ≤ (if q a = true then 1 else 0) := by
        by_cases hpa : p a = true
        · rw [if_pos hpa, if_pos (hpq a (List.mem_cons_self a t) hpa)]
        · simp only [if_neg hpa]; omega
      omega

theorem bitsCount_lt_of_submask_ne {a b : Nat} (h : Submask a b) (hne : a ≠ b)
    (hb : b < 2 ^ nTiles) : bitsCount a < bitsCount b := by
  have ha : a < 2 ^ nTiles := submask_lt h hb
  have hex : ∃ j, j < nTiles ∧ b.testBit j = true ∧ a.testBit j = false := by
    by_contra hno
    push_neg at hno
    apply hne
    apply Nat.eq_of_testBit_eq
    intro i
    by_cases hi : i < nTiles
    · cases hq : a.testBit i
      · cases hr : b.testBit i
        · rfl
        · exact absurd (hno i hi hr) (by simp [hq])
      · rw [h i hq]
    · rw [Nat.testBit_lt_two_pow (Nat.lt_of_lt_of_le ha (Nat.pow_le_pow_right (by omega) (by omega))),
        Nat.testBit_lt_two_pow (Nat.lt_of_lt_of_le hb (Nat.pow_le_pow_right (by omega) (by omega)))]
  obtain ⟨j, hjn, hbj, haj⟩ := hex
  exact countP_lt_of_witness (fun x _ hx => h x hx) (List.mem_range.mpr hjn) hbj haj

theorem range_filter_eq_self {t n : Nat} (h : t < n) :
    (List.range n).filter (fun j => (2 ^ t).testBit j) = [t] := by
  induction n with
  | zero => omega
  | succ m ih =>
    rw [List.range_succ, List.filter_append]
    by_cases htm : t = m
    · subst htm
      have h1 : (List.range t).filter (fun j => (2 ^ t).testBit j) = [] := by
        rw [List.filter_eq_nil_iff]
        intro a ha
        rw [Nat.testBit_two_pow]
        have := List.mem_range.mp ha
        simp
        omega
      have h2 : (List.filter (fun j => (2 ^ t).testBit j) [t]) = [t] := by
        simp [Nat.testBit_two_pow]
      rw [h1, h2, List.nil_append]
    · have ht : t < m := by omega
      rw [ih ht]
      have : (List.filter (fun j => (2 ^ t).testBit j) [m]) = [] := by
        rw [List.filter_eq_nil_iff]
        intro a ha
        simp at ha
        subst ha
        rw [Nat.testBit_two_pow]
        simp; omega
      rw [this, List.append_nil]

theorem bitsCount_two_pow {t : Nat} (h : t < nTiles) : bitsCount (2 ^ t) = 1 := by
  rw [bitsCount_eq_length]
  unfold bitsList
  simp only [bitsHas]
  rw [range_filter_eq_self h]
  rfl

theorem bitsList_singleton_eq {b t : Nat} (hb : b < 2 ^ nTiles)
    (h : bitsList b = [t]) : b = 2 ^ t ∧ t < nTiles := by
  have htn : t < nTiles := by
    have : t ∈ bitsList b := by rw [h]; exact List.mem_singleton_self t
    exact (mem_bitsList.mp this).1
  refine ⟨?_, htn⟩
  apply Nat.eq_of_testBit_eq
  intro i
  by_cases hi : i < nTiles
  · rw [Nat.testBit_two_pow]
    cases hq : b.testBit i
    · have : i ∉ bitsList b := by
        intro hmem
        rw [mem_bitsList] at hmem
        rw [hq] at hmem
        exact Bool.false_ne_true hmem.2
      rw [h] at this
      simp at this
      simp [Ne.symm this]
    · have : i ∈ bitsList b := mem_bitsList.mpr ⟨hi, hq⟩
      rw [h] at this
      simp at this
      simp [this]
  · rw [Nat.testBit_lt_two_pow (Nat.lt_of_lt_of_le hb (Nat.pow_le_pow_right (by omega) (by omega)))]
    rw [Nat.testBit_two_pow]
    simp; omega

theorem bitsCount_zero_iff {b : Nat} : bitsCount b = 0 ↔ bitsList b = [] := by
  rw [bitsCount_eq_length, List.length_eq_zero]

/-! ### Mask lemmas for the engine operations -/

theorem submask_foldl {α : Type} (l : List α) (f : Nat → α → Nat)
    (hf : ∀ w a, Submask (f w a) w) (w0 : Nat) : Submask (l.foldl f w0) w0 := by
  induction l generalizing w0 with
  | nil => exact Submask.refl w0
  | cons a t ih => exact (ih (f w0 a)).trans (hf w0 a)

theorem submask_enforceHouse (s : GridState) (idx : Nat) (w0 : Nat) :
    Submask (enforceHouseConstraints s idx w0) w0 := by
  unfold enforceHouseConstraints
  apply submask_foldl
  intro w t
  dsimp only
  split
  · exact Submask.refl w
  split
  · exact Submask.refl w
  split
  · exact submask_bitsClear w t
  split
  · exact Submask.refl w
  · exact submask_bitsClear w t

theorem testBit_foldl_bitsSet_mem (l : List Nat) (g : Nat → Bool) (acc j : Nat)
    (h : (l.foldl (fun nw t => if g t then bitsSet nw t else nw) acc).testBit j = true) :
    acc.testBit j = true ∨ j ∈ l := by
  induction l generalizing acc with
  | nil => exact Or.inl h
  | cons a t ih =>
    rw [List.foldl_cons] at h
    rcases ih _ h with hacc | hmem
    · by_cases hg : g a = true
      · rw [if_pos hg] at hacc
        rw [testBit_bitsSet] at hacc
        rcases Bool.or_eq_true_iff.mp hacc with h1 | h2
        · exact Or.inl h1
        · exact Or.inr (List.mem_cons.mpr (Or.inl (of_decide_eq_true h2).symm))
      · rw [if_neg hg] at hacc
        exact Or.inl hacc
    · exact Or.inr (List.mem_cons_of_mem _ hmem)

theorem testBit_cardFilter_mem {s : GridState} {current nIdx j : Nat}
    (h : (cardFilter s current nIdx).testBit j = true) : j ∈ bitsList (s.wave nIdx) := by
  unfold cardFilter at h
  rcases testBit_foldl_bitsSet_mem _ _ _ _ h with h0 | hm
  · rw [Nat.zero_testBit] at h0
    exact absurd h0 Bool.false_ne_true
  · exact hm

theorem submask_cardFilter (s : GridState) (current nIdx : Nat) :
    Submask (cardFilter s current nIdx) (s.wave nIdx) := by
  intro j hj
  exact (mem_bitsList.mp (testBit_cardFilter_mem hj)).2

theorem lt_of_testBit_bounded {b : Nat} (h : ∀ j, b.testBit j = true → j < nTiles) :
    b < 2 ^ nTiles := by
  apply Nat.lt_pow_two_of_testBit
  intro i hi
  cases hq : b.testBit i
  · rfl
  · exact absurd (h i hq) (by omega)

theorem cardFilter_lt (s : GridState) (current nIdx : Nat) :
    cardFilter s current nIdx < 2 ^ nTiles := by
  apply lt_of_testBit_bounded
  intro j hj
  exact (mem_bitsList.mp (testBit_cardFilter_mem hj)).1

/-! ### State update lemmas -/

theorem updWave_wave (s : GridState) (i m j : Nat) :
    (updWave s i m).wave j = if j = i then m else s.wave j := rfl

theorem updCollapsed_collapsed (s : GridState) (i : Nat) (v : Int) (j : Nat) :
    (updCollapsed s i v).collapsed j = if j = i then v else s.collapsed j := rfl

/-! ### Sampling lemmas -/

theorem sampleGo_mem (l : List (Nat × Frac)) (r : Frac) (c : Nat) :
    sampleGo l r c = c ∨ ∃ p ∈ l, p.1 = sampleGo l r c := by
  induction l generalizing r with
  | nil => exact Or.inl rfl
  | cons a t ih =>
    rcases a with ⟨o, w⟩
    simp only [sampleGo]
    split
    · exact Or.inr ⟨(o, w), List.mem_cons_self _ _, rfl⟩
    · rcases ih (r.sub w) with h | ⟨p, hp, hpe⟩
      · exact Or.inl h
      · exact Or.inr ⟨p, List.mem_cons_of_mem _ hp, hpe⟩

theorem collapsePick_mem (options : List Nat) (rand : Frac) (hne : options ≠ []) :
    collapsePick options rand ∈ options := by
  have h := sampleGo_mem (options.zip (options.map tileWeight))
    (rand.mul ((options.map tileWeight).foldl Frac.add (Frac.ofInt 0))) (options.headD 0)
  rcases h with h | ⟨p, hp, hpe⟩
  · show sampleGo _ _ _ ∈ options
    rw [h]
    cases options with
    | nil => exact absurd rfl hne
    | cons a t => exact List.mem_cons_self a t
  · show sampleGo _ _ _ ∈ options
    rw [← hpe]
    exact (List.of_mem_zip hp).1

/-! ### Collapse lemmas -/

theorem collapseCell_empty (s : GridState) (idx : Nat) (rand : Frac)
    (h : bitsCount (s.wave idx) = 0) : collapseCell s idx rand = (s, false) := by
  have he : bitsList (s.wave idx) = [] := bitsCount_zero_iff.mp h
  unfold collapseCell
  rw [he]
  rfl

theorem collapseCell_success (s : GridState) (idx : Nat) (rand : Frac)
    (h : bitsCount (s.wave idx) ≠ 0) :
    collapseCell s idx rand =
      (⟨s.width, s.height,
        fun j => if j = idx then bitsSet 0 (collapsePick (bitsList (s.wave idx)) rand) else s.wave j,
        fun j => if j = idx then (collapsePick (bitsList (s.wave idx)) rand : Int) else s.collapsed j,
        setAdd s.dirty idx⟩, true) := by
  have hb : (bitsList (s.wave idx)).isEmpty = false := by
    cases hl : bitsList (s.wave idx) with
    | nil => exact absurd (by rw [bitsCount_eq_length, hl]; rfl) h
    | cons a t => rfl
  simp only [collapseCell, hb]
  rfl

/-! ### Measure accounting -/

theorem sum_map_congr_outside {f g : Nat → Nat} {i : Nat} (h : ∀ j, j ≠ i → f j = g j) :
    ∀ (l : List Nat), l.Nodup →
      (l.map f).sum + (if i ∈ l then g i else 0)
        = (l.map g).sum + (if i ∈ l then f i else 0) := by
  intro l
  induction l with
  | nil => intro _; simp
  | cons a t ih =>
    intro hnd
    have hndt := (List.nodup_cons.mp hnd).2
    have hat := (List.nodup_cons.mp hnd).1
    simp only [List.map_cons, List.sum_cons]
    by_cases hai : a = i
    · subst hai
      have hmap : t.map f = t.map g := by
        apply List.map_congr_left
        intro j hj
        exact h j (fun hji => hat (hji ▸ hj))
      rw [hmap, if_pos (List.mem_cons_self a t), if_pos (List.mem_cons_self a t)]
      omega
    · have hfa : f a = g a := h a hai
      have iht := ih hndt
      by_cases hit : i ∈ t
      · have hic : i ∈ a :: t := List.mem_cons_of_mem a hit
        rw [if_pos hic, if_pos hic]
        rw [if_pos hit, if_pos hit] at iht
        omega
      · have hic : i ∉ a :: t := by
          intro hmem
          rcases List.mem_cons.mp hmem with h1 | h2
          · exact hai h1.symm
          · exact hit h2
        rw [if_neg hic, if_neg hic]
        rw [if_neg hit, if_neg hit] at iht
        omega

theorem size_eq_of_dims {s s' : GridState} (hw : s'.width = s.width)
    (hh : s'.height = s.height) : s'.size = s.size := by
  unfold GridState.size
  rw [hw, hh]

theorem totalBits_congr {s s' : GridState} {i : Nat}
    (h : ∀ j, j ≠ i → s'.wave j = s.wave j)
    (hw : s'.width = s.width) (hh : s'.height = s.height) (hi : i < s.size) :
    totalBits s' + bitsCount (s.wave i) = totalBits s + bitsCount (s'.wave i) := by
  unfold totalBits
  rw [size_eq_of_dims hw hh]
  have key := sum_map_congr_outside
    (f := fun j => bitsCount (s'.wave j)) (g := fun j => bitsCount (s.wave j)) (i := i)
    (fun j hj => by dsimp only; rw [h j hj]) (List.range s.size) (List.nodup_range s.size)
  rw [if_pos (List.mem_range.mpr hi), if_pos (List.mem_range.mpr hi)] at key
  exact key

theorem totalBits_eq_of_wave_eq {s s' : GridState} (hw : s'.width = s.width)
    (hh : s'.height = s.height) (h : ∀ j, s'.wave j = s.wave j) :
    totalBits s' = totalBits s := by
  unfold totalBits
  rw [size_eq_of_dims hw hh]
  congr 1
  apply List.map_congr_left
  intro j _
  rw [h j]

/-! ### Neighbour update lemmas -/

theorem applyNeighbourUpdate_eq_same {s : GridState} {nIdx newWave : Nat}
    {stack changed : List Nat} (h : s.wave nIdx = newWave) :
    applyNeighbourUpdate s nIdx newWave stack changed = (s, stack, changed) := by
  unfold applyNeighbourUpdate
  rw [if_pos h]

theorem applyNeighbourUpdate_eq_one {s : GridState} {nIdx newWave : Nat}
    {stack changed : List Nat} (hne : ¬ s.wave nIdx = newWave) (hc : bitsCount newWave = 1) :
    applyNeighbourUpdate s nIdx newWave stack changed =
      (⟨s.width, s.height, fun j => if j = nIdx then newWave else s.wave j,
        fun j => if j = nIdx then
            (bitsList newWave).foldl (fun (_ : Int) (t : Nat) => (t : Int)) (s.collapsed nIdx)
          else s.collapsed j,
        setAdd s.dirty nIdx⟩, nIdx :: stack, setAdd changed nIdx) := by
  simp only [applyNeighbourUpdate]
  rw [if_neg hne, if_pos hc]
  rfl

theorem applyNeighbourUpdate_eq_many {s : GridState} {nIdx newWave : Nat}
    {stack changed : List Nat} (hne : ¬ s.wave nIdx = newWave) (hc : ¬ bitsCount newWave = 1) :
    applyNeighbourUpdate s nIdx newWave stack changed =
      (⟨s.width, s.height, fun j => if j = nIdx then newWave else s.wave j,
        s.collapsed, setAdd s.dirty nIdx⟩, nIdx :: stack, setAdd changed nIdx) := by
  simp only [applyNeighbourUpdate]
  rw [if_neg hne, if_neg hc]
  rfl

theorem collapsedVal_of_count_one {newWave : Nat} (hlt : newWave < 2 ^ nTiles)
    (hc : bitsCount newWave = 1) (init : Int) :
    ∃ t, bitsList newWave = [t] ∧ t < nTiles ∧ newWave = 2 ^ t ∧
      (bitsList newWave).foldl (fun (_ : Int) (u : Nat) => (u : Int)) init = (t : Int) := by
  obtain ⟨t, ht⟩ := List.length_eq_one.mp (by rw [← bitsCount_eq_length]; exact hc)
  obtain ⟨he, htn⟩ := bitsList_singleton_eq hlt ht
  exact ⟨t, ht, htn, he, by rw [ht]; rfl⟩

/-! ### Relation algebra and neighbour bounds -/

theorem Preserved_refl (s : GridState) : Preserved s s := fun _ _ => ⟨rfl, rfl⟩

theorem Preserved_trans {s s' s'' : GridState} (h1 : Preserved s s') (h2 : Preserved s' s'') :
    Preserved s s'' := by
  intro i hi
  obtain ⟨hc, hw⟩ := h1 i hi
  obtain ⟨hc2, hw2⟩ := h2 i (by rw [hc]; exact hi)
  exact ⟨hc2.trans hc, hw2.trans hw⟩

theorem ShrinkW_refl (s : GridState) : ShrinkW s s := fun _ => Submask.refl _

theorem ShrinkW_trans {s s' s'' : GridState} (h1 : ShrinkW s s') (h2 : ShrinkW s' s'') :
    ShrinkW s s'' := fun i => (h2 i).trans (h1 i)

theorem idx_lt_size {a b w h : Nat} (ha : a < h) (hb : b < w) : a * w + b < w * h := by
  have h2 : (a + 1) * w = a * w + w := by ring
  have h3 : (a + 1) * w ≤ h * w := Nat.mul_le_mul_right w ha
  have h4 : h * w = w * h := Nat.mul_comm h w
  omega

theorem mem_ite_singleton {n v : Nat} {c : Prop} [Decidable c]
    (h : n ∈ if c then [v] else ([] : List Nat)) : c ∧ n = v := by
  by_cases hc : c
  · rw [if_pos hc] at h
    exact ⟨hc, List.mem_singleton.mp h⟩
  · rw [if_neg hc] at h
    cases h

theorem cardinalNeighbours_lt {s : GridState} {c : Nat} (hc : c < s.size) :
    ∀ n ∈ cardinalNeighbours s c, n < s.size := by
  intro n hn
  have hsz : s.size = s.width * s.height := rfl
  have hw : 0 < s.width := by
    rcases Nat.eq_zero_or_pos s.width with h0 | h1
    · rw [hsz, h0] at hc; omega
    · exact h1
  have hx : c % s.width < s.width := Nat.mod_lt _ hw
  have hy : c / s.width < s.height := by
    rw [Nat.div_lt_iff_lt_mul hw]
    calc c < s.size := hc
      _ = s.width * s.height := rfl
      _ = s.height * s.width := Nat.mul_comm _ _
  simp only [cardinalNeighbours, List.mem_append] at hn
  rw [hsz]
  rcases hn with ((h | h) | h) | h
  · obtain ⟨hg, rfl⟩ := mem_ite_singleton h
    exact idx_lt_size hy (by omega)
  · obtain ⟨hg, rfl⟩ := mem_ite_singleton h
    exact idx_lt_size hy (by omega)
  · obtain ⟨hg, rfl⟩ := mem_ite_singleton h
    generalize hY : c / s.width = Y at hg hy ⊢
    exact idx_lt_size (by omega) hx
  · obtain ⟨hg, rfl⟩ := mem_ite_singleton h
    generalize hY : c / s.width = Y at hg hy ⊢
    exact idx_lt_size (by omega) hx

theorem allNeighbours_lt (s : GridState) (c : Nat) :
    ∀ n ∈ allNeighbours s c, n < s.size := by
  intro n hn
  have hsz : s.size = s.width * s.height := rfl
  simp only [allNeighbours, List.mem_flatMap] at hn
  obtain ⟨dy, _, dx, _, hn⟩ := hn
  by_cases hz : dx = 0 ∧ dy = 0
  · rw [if_pos hz] at hn
    cases hn
  · rw [if_neg hz] at hn
    by_cases hb : 0 ≤ (↑(c % s.width) : Int) + dx ∧ (↑(c % s.width) : Int) + dx < (s.width : Int)
        ∧ 0 ≤ (↑(c / s.width) : Int) + dy ∧ (↑(c / s.width) : Int) + dy < (s.height : Int)
    · rw [if_pos hb] at hn
      have hne : n = ((↑(c / s.width) : Int) + dy).toNat * s.width
          + ((↑(c % s.width) : Int) + dx).toNat := List.mem_singleton.mp hn
      obtain ⟨hb1, hb2, hb3, hb4⟩ := hb
      generalize hX : (↑(c % s.width) : Int) + dx = nx at hb1 hb2 hne
      generalize hY : (↑(c / s.width) : Int) + dy = ny at hb3 hb4 hne
      have h1 : ny.toNat < s.height := by omega
      have h2 : nx.toNat < s.width := by omega
      rw [hne, hsz]
      exact idx_lt_size h1 h2
    · rw [if_neg hb] at hn
      cases hn

/-! ### The neighbour update specification -/

theorem applyNeighbourUpdate_spec (t : GridState) (n W : Nat) (st ch : List Nat)
    (hsub : Submask W (t.wave n)) (hlt : W < 2 ^ nTiles) (hunc : t.collapsed n = -1)
    (hwf : WFWaves t) (hn : n < t.size) :
    (applyNeighbourUpdate t n W st ch).1.width = t.width ∧
    (applyNeighbourUpdate t n W st ch).1.height = t.height ∧
    WFWaves (applyNeighbourUpdate t n W st ch).1 ∧
    (InvS t → InvS (applyNeighbourUpdate t n W st ch).1) ∧
    Preserved t (applyNeighbourUpdate t n W st ch).1 ∧
    ShrinkW t (applyNeighbourUpdate t n W st ch).1 ∧
    ((applyNeighbourUpdate t n W st ch).2.1 = st ∨
      (applyNeighbourUpdate t n W st ch).2.1 = n :: st) ∧
    13 * totalBits (applyNeighbourUpdate t n W st ch).1
        + (applyNeighbourUpdate t n W st ch).2.1.length
      ≤ 13 * totalBits t + st.length := by
  by_cases heq : t.wave n = W
  · rw [applyNeighbourUpdate_eq_same heq]
    exact ⟨rfl, rfl, hwf, fun hinv => hinv, Preserved_refl t, ShrinkW_refl t, Or.inl rfl,
      by dsimp only; exact Nat.le_refl _⟩
  · have hcnt : bitsCount W < bitsCount (t.wave n) :=
      bitsCount_lt_of_submask_ne hsub (fun h => heq h.symm) (hwf n)
    by_cases hc1 : bitsCount W = 1
    · rw [applyNeighbourUpdate_eq_one heq hc1]
      obtain ⟨u, hul, hun, hWu, hfold⟩ := collapsedVal_of_count_one hlt hc1 (t.collapsed n)
      refine ⟨rfl, rfl, ?_, ?_, ?_, ?_, Or.inr rfl, ?_⟩
      · intro i
        dsimp only
        by_cases hin : i = n
        · rw [if_pos hin]; exact hlt
        · rw [if_neg hin]; exact hwf i
      · intro hinv i hi
        dsimp only at hi ⊢
        by_cases hin : i = n
        · rw [if_pos hin, if_pos hin, hfold]
          refine ⟨by omega, by omega, ?_⟩
          have h3 : ((u : Int)).toNat = u := by omega
          rw [h3]
          exact hWu
        · rw [if_neg hin, if_neg hin]
          rw [if_neg hin] at hi
          exact hinv i hi
      · intro i hi
        have hin : i ≠ n := fun h => hi (h ▸ hunc)
        dsimp only
        rw [if_neg hin, if_neg hin]
        exact ⟨rfl, rfl⟩
      · intro i
        dsimp only
        by_cases hin : i = n
        · rw [if_pos hin, hin]
          exact hsub
        · rw [if_neg hin]
          exact Submask.refl _
      · have hw : ∀ j, j ≠ n →
            (⟨t.width, t.height, fun j => if j = n then W else t.wave j,
              fun j => if j = n then
                  (bitsList W).foldl (fun (_ : Int) (u : Nat) => (u : Int)) (t.collapsed n)
                else t.collapsed j,
              setAdd t.dirty n⟩ : GridState).wave j = t.wave j := by
          intro j hj
          dsimp only
          rw [if_neg hj]
        have hkey := totalBits_congr (s := t) hw rfl rfl hn
        have hWn : (⟨t.width, t.height, fun j => if j = n then W else t.wave j,
            fun j => if j = n then
                (bitsList W).foldl (fun (_ : Int) (u : Nat) => (u : Int)) (t.collapsed n)
              else t.collapsed j,
            setAdd t.dirty n⟩ : GridState).wave n = W := by
          dsimp only
          rw [if_pos rfl]
        rw [hWn] at hkey
        simp only [List.length_cons]
        omega
    · rw [applyNeighbourUpdate_eq_many heq hc1]
      refine ⟨rfl, rfl, ?_, ?_, ?_, ?_, Or.inr rfl, ?_⟩
      · intro i
        dsimp only
        by_cases hin : i = n
        · rw [if_pos hin]; exact hlt
        · rw [if_neg hin]; exact hwf i
      · intro hinv i hi
        dsimp only at hi ⊢
        by_cases hin : i = n
        · rw [hin] at hi
          exact absurd hunc hi
        · rw [if_neg hin]
          exact hinv i hi
      · intro i hi
        have hin : i ≠ n := fun h => hi (h ▸ hunc)
        dsimp only
        rw [if_neg hin]
        exact ⟨rfl, rfl⟩
      · intro i
        dsimp only
        by_cases hin : i = n
        · rw [if_pos hin, hin]
          exact hsub
        · rw [if_neg hin]
          exact Submask.refl _
      · have hw : ∀ j, j ≠ n →
            (⟨t.width, t.height, fun j => if j = n then W else t.wave j,
              t.collapsed, setAdd t.dirty n⟩ : GridState).wave j = t.wave j := by
          intro j hj
          dsimp only
          rw [if_neg hj]
        have hkey := totalBits_congr (s := t) hw rfl rfl hn
        have hWn : (⟨t.width, t.height, fun j => if j = n then W else t.wave j,
            t.collapsed, setAdd t.dirty n⟩ : GridState).wave n = W := by
          dsimp only
          rw [if_pos rfl]
        rw [hWn] at hkey
        simp only [List.length_cons]
        omega

theorem neighbourStep_eq_skip (upd : GridState → Nat → Nat) (t : GridState)
    (st ch : List Nat) (n : Nat) (h : ¬ t.collapsed n = -1) :
    neighbourStep upd (t, st, ch) n = (t, st, ch) := by
  unfold neighbourStep
  exact if_pos h

theorem neighbourStep_eq_go (upd : GridState → Nat → Nat) (t : GridState)
    (st ch : List Nat) (n : Nat) (h : t.collapsed n = -1) :
    neighbourStep upd (t, st, ch) n = applyNeighbourUpdate t n (upd t n) st ch := by
  unfold neighbourStep
  exact if_neg (by simp [h])

theorem neighbourFold_spec (upd : GridState → Nat → Nat)
    (hupd : ∀ t n, WFWaves t → Submask (upd t n) (t.wave n) ∧ upd t n < 2 ^ nTiles)
    (ns : List Nat) :
    ∀ (s : GridState) (stack changed : List Nat) (sz : Nat),
      s.size = sz → (∀ n ∈ ns, n < sz) → (∀ n ∈ stack, n < sz) → WFWaves s →
      ∀ r, r = ns.foldl (neighbourStep upd) (s, stack, changed) →
        r.1.width = s.width ∧ r.1.height = s.height ∧ WFWaves r.1 ∧ (InvS s → InvS r.1) ∧
        Preserved s r.1 ∧ ShrinkW s r.1 ∧ (∀ n ∈ r.2.1, n < sz) ∧
        13 * totalBits r.1 + r.2.1.length ≤ 13 * totalBits s + stack.length := by
  induction ns with
  | nil =>
    intro s stack changed sz hsz hns hst hwf r hr
    rw [List.foldl_nil] at hr
    subst hr
    exact ⟨rfl, rfl, hwf, fun hinv => hinv, Preserved_refl s, ShrinkW_refl s, hst, Nat.le_refl _⟩
  | cons n ns ih =>
    intro s stack changed sz hsz hns hst hwf r hr
    rw [List.foldl_cons] at hr
    have hnsz : n < sz := hns n (List.mem_cons_self n ns)
    have hns' : ∀ m ∈ ns, m < sz := fun m hm => hns m (List.mem_cons_of_mem n hm)
    by_cases hcol : s.collapsed n = -1
    · rw [neighbourStep_eq_go upd s stack changed n hcol] at hr
      obtain ⟨hsub, hlt⟩ := hupd s n hwf
      obtain ⟨hW, hH, hWF, hINV, hPRE, hSHR, hST, hM⟩ :=
        applyNeighbourUpdate_spec s n (upd s n) stack changed hsub hlt hcol hwf
          (hsz ▸ hnsz)
      set a := applyNeighbourUpdate s n (upd s n) stack changed with ha
      have hsz1 : a.1.size = sz := by
        rw [size_eq_of_dims hW hH]
        exact hsz
      have hst1 : ∀ m ∈ a.2.1, m < sz := by
        rcases hST with h1 | h1
        · rw [h1]; exact hst
        · rw [h1]
          intro m hm
          rcases List.mem_cons.mp hm with rfl | hm2
          · exact hnsz
          · exact hst m hm2
      obtain ⟨iW, iH, iWF, iINV, iPRE, iSHR, iST, iM⟩ :=
        ih a.1 a.2.1 a.2.2 sz hsz1 hns' hst1 hWF r (by rw [hr])
      refine ⟨iW.trans hW, iH.trans hH, iWF, fun hinv => iINV (hINV hinv),
        Preserved_trans hPRE iPRE, ShrinkW_trans hSHR iSHR, iST, ?_⟩
      exact Nat.le_trans iM hM
    · rw [neighbourStep_eq_skip upd s stack changed n hcol] at hr
      exact ih s stack changed sz hsz hns' hst hwf r hr

/-! ### The propagation worklist specification -/

theorem upd_cardinal_ok (current : Nat) :
    ∀ (t : GridState) (n : Nat), WFWaves t →
      Submask (enforceHouseConstraints t n (cardFilter t current n)) (t.wave n) ∧
      enforceHouseConstraints t n (cardFilter t current n) < 2 ^ nTiles := by
  intro t n _
  constructor
  · exact (submask_enforceHouse t n _).trans (submask_cardFilter t current n)
  · exact submask_lt (submask_enforceHouse t n _) (cardFilter_lt t current n)

theorem upd_house_ok :
    ∀ (t : GridState) (n : Nat), WFWaves t →
      Submask (enforceHouseConstraints t n (t.wave n)) (t.wave n) ∧
      enforceHouseConstraints t n (t.wave n) < 2 ^ nTiles := by
  intro t n hwf
  constructor
  · exact submask_enforceHouse t n _
  · exact submask_lt (submask_enforceHouse t n _) (hwf n)

theorem propagateAux_spec :
    ∀ (fuel : Nat) (s : GridState) (stack changed : List Nat) (sz : Nat),
      s.size = sz → (∀ n ∈ stack, n < sz) → WFWaves s →
      ∀ r, r = propagateAux fuel s stack changed →
        r.1.width = s.width ∧ r.1.height = s.height ∧ WFWaves r.1 ∧ (InvS s → InvS r.1) ∧
        Preserved s r.1 ∧ ShrinkW s r.1 ∧
        (13 * totalBits s + stack.length < fuel → r.2.2 = true) := by
  intro fuel
  induction fuel with
  | zero =>
    intro s stack changed sz hsz hst hwf r hr
    cases stack with
    | nil =>
      simp only [propagateAux] at hr
      subst hr
      exact ⟨rfl, rfl, hwf, fun hinv => hinv, Preserved_refl s, ShrinkW_refl s, fun _ => rfl⟩
    | cons current rest =>
      simp only [propagateAux] at hr
      subst hr
      exact ⟨rfl, rfl, hwf, fun hinv => hinv, Preserved_refl s, ShrinkW_refl s,
        fun h => absurd h (Nat.not_lt_zero _)⟩
  | succ fuel ih =>
    intro s stack changed sz hsz hst hwf r hr
    cases stack with
    | nil =>
      simp only [propagateAux] at hr
      subst hr
      exact ⟨rfl, rfl, hwf, fun hinv => hinv, Preserved_refl s, ShrinkW_refl s, fun _ => rfl⟩
    | cons current rest =>
      simp only [propagateAux] at hr
      have hcur : current < sz := hst current (List.mem_cons_self current rest)
      have hrest : ∀ n ∈ rest, n < sz := fun n hn => hst n (List.mem_cons_of_mem current hn)
      obtain ⟨aW, aH, aWF, aINV, aPRE, aSHR, aST, aM⟩ :=
        neighbourFold_spec _ (upd_cardinal_ok current) (cardinalNeighbours s current)
          s rest changed sz hsz
          (fun n hn => hsz ▸ cardinalNeighbours_lt (hsz ▸ hcur) n hn)
          hrest hwf
          (processCardinal s current rest changed) rfl
      set r1 := processCardinal s current rest changed with hr1
      have hsz1 : r1.1.size = sz := by rw [size_eq_of_dims aW aH]; exact hsz
      obtain ⟨bW, bH, bWF, bINV, bPRE, bSHR, bST, bM⟩ :=
        neighbourFold_spec _ upd_house_ok (allNeighbours r1.1 current)
          r1.1 r1.2.1 r1.2.2 sz hsz1
          (fun n hn => hsz1 ▸ allNeighbours_lt r1.1 current n hn)
          aST aWF
          (processHouse r1.1 current r1.2.1 r1.2.2) rfl
      set r2 := processHouse r1.1 current r1.2.1 r1.2.2 with hr2
      have hsz2 : r2.1.size = sz := by rw [size_eq_of_dims bW bH]; exact hsz1
      obtain ⟨cW, cH, cWF, cINV, cPRE, cSHR, cFLAG⟩ :=
        ih r2.1 r2.2.1 r2.2.2 sz hsz2 bST bWF r hr
      refine ⟨cW.trans (bW.trans aW), cH.trans (bH.trans aH), cWF,
        fun hinv => cINV (bINV (aINV hinv)),
        Preserved_trans aPRE (Preserved_trans bPRE cPRE),
        ShrinkW_trans aSHR (ShrinkW_trans bSHR cSHR), ?_⟩
      intro hfuel
      apply cFLAG
      have h1 : 13 * totalBits r2.1 + r2.2.1.length ≤ 13 * totalBits r1.1 + r1.2.1.length := bM
      have h2 : 13 * totalBits r1.1 + r1.2.1.length ≤ 13 * totalBits s + rest.length := aM
      simp only [List.length_cons] at hfuel
      omega

/-! ### Selection scan lemmas -/

theorem pickLoop_nil (s : GridState) (best : Option Nat) (cands : List Nat) :
    pickLoop s [] best cands = some (best, cands) := rfl

theorem pickLoop_cons_skip {s : GridState} {i : Nat} (rest : List Nat)
    (best : Option Nat) (cands : List Nat) (h : s.collapsed i ≠ -1) :
    pickLoop s (i :: rest) best cands = pickLoop s rest best cands := by
  simp only [pickLoop]
  rw [if_pos h]

theorem pickLoop_cons_zero {s : GridState} {i : Nat} (rest : List Nat)
    (best : Option Nat) (cands : List Nat) (h : s.collapsed i = -1)
    (h0 : bitsCount (s.wave i) = 0) :
    pickLoop s (i :: rest) best cands = none := by
  have hcc : ¬ (s.collapsed i ≠ -1) := fun hx => hx h
  simp only [pickLoop]
  rw [if_neg hcc, if_pos h0]

theorem pickLoop_cons_first {s : GridState} {i : Nat} (rest : List Nat)
    (cands : List Nat) (h : s.collapsed i = -1) (h0 : bitsCount (s.wave i) ≠ 0) :
    pickLoop s (i :: rest) none cands = pickLoop s rest (some (bitsCount (s.wave i))) [i] := by
  have hcc : ¬ (s.collapsed i ≠ -1) := fun hx => hx h
  simp only [pickLoop]
  rw [if_neg hcc, if_neg h0]

theorem pickLoop_cons_lt {s : GridState} {i b : Nat} (rest : List Nat)
    (cands : List Nat) (h : s.collapsed i = -1) (h0 : bitsCount (s.wave i) ≠ 0)
    (hlt : bitsCount (s.wave i) < b) :
    pickLoop s (i :: rest) (some b) cands
      = pickLoop s rest (some (bitsCount (s.wave i))) [i] := by
  have hcc : ¬ (s.collapsed i ≠ -1) := fun hx => hx h
  simp only [pickLoop]
  rw [if_neg hcc, if_neg h0, if_pos hlt]

theorem pickLoop_cons_eq {s : GridState} {i b : Nat} (rest : List Nat)
    (cands : List Nat) (h : s.collapsed i = -1) (h0 : bitsCount (s.wave i) ≠ 0)
    (heq : bitsCount (s.wave i) = b) :
    pickLoop s (i :: rest) (some b) cands = pickLoop s rest (some b) (cands ++ [i]) := by
  have hcc : ¬ (s.collapsed i ≠ -1) := fun hx => hx h
  have hnlt : ¬ bitsCount (s.wave i) < b := by omega
  simp only [pickLoop]
  rw [if_neg hcc, if_neg h0, if_neg hnlt, if_pos heq]

theorem pickLoop_cons_gt {s : GridState} {i b : Nat} (rest : List Nat)
    (cands : List Nat) (h : s.collapsed i = -1) (h0 : bitsCount (s.wave i) ≠ 0)
    (hgt : b < bitsCount (s.wave i)) :
    pickLoop s (i :: rest) (some b) cands = pickLoop s rest (some b) cands := by
  have hcc : ¬ (s.collapsed i ≠ -1) := fun hx => hx h
  have hnlt : ¬ bitsCount (s.wave i) < b := by omega
  have hneq : ¬ bitsCount (s.wave i) = b := by omega
  simp only [pickLoop]
  rw [if_neg hcc, if_neg h0, if_neg hnlt, if_neg hneq]

theorem minCnt_append_one (s : GridState) (P : List Nat) (i : Nat) :
    minCnt s (P ++ [i]) =
      if s.collapsed i = -1 then
        some (match minCnt s P with
          | none => bitsCount (s.wave i)
          | some b => min b (bitsCount (s.wave i)))
      else minCnt s P := by
  simp only [minCnt, List.foldl_append, List.foldl_cons, List.foldl_nil]

theorem tiesOf_append_one (s : GridState) (P : List Nat) (i m : Nat) :
    tiesOf s (P ++ [i]) m =
      tiesOf s P m ++
        (if s.collapsed i = -1 ∧ bitsCount (s.wave i) = m then [i] else []) := by
  simp only [tiesOf, List.filter_append]
  congr 1
  by_cases h : s.collapsed i = -1 ∧ bitsCount (s.wave i) = m
  · rw [if_pos h]
    simp [h]
  · rw [if_neg h]
    simp [h]

theorem minCnt_none_iff (s : GridState) :
    ∀ (P : List Nat), minCnt s P = none ↔ ∀ j ∈ P, s.collapsed j ≠ -1 := by
  have gen : ∀ (P : List Nat) (acc : Option Nat),
      (P.foldl (fun acc i =>
        if s.collapsed i = -1 then
          some (match acc with
            | none => bitsCount (s.wave i)
            | some b => min b (bitsCount (s.wave i)))
        else acc) acc) = none ↔ (acc = none ∧ ∀ j ∈ P, s.collapsed j ≠ -1) := by
    intro P
    induction P with
    | nil => intro acc; simp
    | cons i rest ih =>
      intro acc
      rw [List.foldl_cons]
      by_cases h : s.collapsed i = -1
      · rw [if_pos h, ih]
        constructor
        · rintro ⟨hnone, _⟩
          cases hnone
        · rintro ⟨_, hall⟩
          exact absurd h (hall i (List.mem_cons_self i rest))
      · rw [if_neg h, ih]
        constructor
        · rintro ⟨hacc, hall⟩
          refine ⟨hacc, ?_⟩
          intro j hj
          rcases List.mem_cons.mp hj with rfl | hjr
          · exact h
          · exact hall j hjr
        · rintro ⟨hacc, hall⟩
          exact ⟨hacc, fun j hj => hall j (List.mem_cons_of_mem i hj)⟩
  intro P
  rw [minCnt, gen]
  simp

theorem minCnt_le (s : GridState) :
    ∀ (P : List Nat) (acc : Option Nat) (b : Nat),
      (P.foldl (fun acc i =>
        if s.collapsed i = -1 then
          some (match acc with
            | none => bitsCount (s.wave i)
            | some b => min b (bitsCount (s.wave i)))
        else acc) acc) = some b →
      (∀ b0, acc = some b0 → b ≤ b0) ∧
      (∀ j ∈ P, s.collapsed j = -1 → b ≤ bitsCount (s.wave j)) := by
  intro P
  induction P with
  | nil =>
    intro acc b h
    rw [List.foldl_nil] at h
    refine ⟨?_, fun j hj => absurd hj (List.not_mem_nil j)⟩
    intro b0 hb0
    rw [hb0] at h
    injection h with h2
    omega
  | cons i rest ih =>
    intro acc b h
    rw [List.foldl_cons] at h
    by_cases hc : s.collapsed i = -1
    · rw [if_pos hc] at h
      obtain ⟨hacc, hrest⟩ := ih _ b h
      cases acc with
      | none =>
        have hbi : b ≤ bitsCount (s.wave i) := hacc _ rfl
        refine ⟨fun b0 hb0 => (by cases hb0), ?_⟩
        intro j hj hjc
        rcases List.mem_cons.mp hj with rfl | hjr
        · exact hbi
        · exact hrest j hjr hjc
      | some b0 =>
        have hbmin : b ≤ min b0 (bitsCount (s.wave i)) := hacc _ rfl
        refine ⟨?_, ?_⟩
        · intro b1 hb1
          have : b0 = b1 := by injection hb1
          omega
        · intro j hj hjc
          rcases List.mem_cons.mp hj with rfl | hjr
          · omega
          · exact hrest j hjr hjc
    · rw [if_neg hc] at h
      obtain ⟨hacc, hrest⟩ := ih _ b h
      refine ⟨hacc, ?_⟩
      intro j hj hjc
      rcases List.mem_cons.mp hj with rfl | hjr
      · exact absurd hjc hc
      · exact hrest j hjr hjc

theorem minCnt_attained (s : GridState) :
    ∀ (P : List Nat) (acc : Option Nat) (b : Nat),
      (P.foldl (fun acc i =>
        if s.collapsed i = -1 then
          some (match acc with
            | none => bitsCount (s.wave i)
            | some b => min b (bitsCount (s.wave i)))
        else acc) acc) = some b →
      acc = some b ∨ ∃ j ∈ P, s.collapsed j = -1 ∧ bitsCount (s.wave j) = b := by
  intro P
  induction P with
  | nil =>
    intro acc b h
    rw [List.foldl_nil] at h
    exact Or.inl h
  | cons i rest ih =>
    intro acc b h
    rw [List.foldl_cons] at h
    by_cases hc : s.collapsed i = -1
    · rw [if_pos hc] at h
      rcases ih _ b h with hacc | ⟨j, hj, hjc, hjb⟩
      · cases acc with
        | none =>
          have : bitsCount (s.wave i) = b := by injection hacc
          exact Or.inr ⟨i, List.mem_cons_self i rest, hc, this⟩
        | some b0 =>
          have hmin : min b0 (bitsCount (s.wave i)) = b := by injection hacc
          by_cases hle : b0 ≤ bitsCount (s.wave i)
          · left
            rw [Nat.min_eq_left hle] at hmin
            rw [hmin]
          · right
            have : bitsCount (s.wave i) = b := by
              rw [Nat.min_eq_right (by omega)] at hmin
              exact hmin
            exact ⟨i, List.mem_cons_self i rest, hc, this⟩
      · exact Or.inr ⟨j, List.mem_cons_of_mem i hj, hjc, hjb⟩
    · rw [if_neg hc] at h
      rcases ih _ b h with hacc | ⟨j, hj, hjc, hjb⟩
      · exact Or.inl hacc
      · exact Or.inr ⟨j, List.mem_cons_of_mem i hj, hjc, hjb⟩

theorem tiesOf_nil_of_none {s : GridState} {P : List Nat}
    (h : ∀ j ∈ P, s.collapsed j ≠ -1) (m : Nat) : tiesOf s P m = [] := by
  rw [tiesOf, List.filter_eq_nil_iff]
  intro j hj
  simp only [decide_eq_true_eq]
  rintro ⟨h1, _⟩
  exact h j hj h1

theorem tiesOf_nil_of_gt {s : GridState} {P : List Nat} {b m : Nat}
    (h : ∀ j ∈ P, s.collapsed j = -1 → b ≤ bitsCount (s.wave j)) (hm : m < b) :
    tiesOf s P m = [] := by
  rw [tiesOf, List.filter_eq_nil_iff]
  intro j hj
  simp only [decide_eq_true_eq]
  rintro ⟨h1, h2⟩
  have := h j hj h1
  omega

theorem pickLoop_none_iff (s : GridState) :
    ∀ (l : List Nat) (best : Option Nat) (cands : List Nat),
      pickLoop s l best cands = none ↔
        ∃ i ∈ l, s.collapsed i = -1 ∧ bitsCount (s.wave i) = 0 := by
  intro l
  induction l with
  | nil =>
    intro best cands
    rw [pickLoop_nil]
    simp
  | cons i rest ih =>
    intro best cands
    have hext : ∀ (res : Option (Option Nat × List Nat)),
        (res = none ↔ ∃ j ∈ rest, s.collapsed j = -1 ∧ bitsCount (s.wave j) = 0) →
        (s.collapsed i = -1 → bitsCount (s.wave i) ≠ 0) →
        (res = none ↔ ∃ j ∈ i :: rest, s.collapsed j = -1 ∧ bitsCount (s.wave j) = 0) := by
      intro res hres hexc
      rw [hres]
      constructor
      · rintro ⟨j, hj, h1, h2⟩
        exact ⟨j, List.mem_cons_of_mem _ hj, h1, h2⟩
      · rintro ⟨j, hj, h1, h2⟩
        rcases List.mem_cons.mp hj with rfl | hjr
        · exact absurd h2 (hexc h1)
        · exact ⟨j, hjr, h1, h2⟩
    by_cases hc : s.collapsed i = -1
    · by_cases h0 : bitsCount (s.wave i) = 0
      · rw [pickLoop_cons_zero rest best cands hc h0]
        constructor
        · intro _
          exact ⟨i, List.mem_cons_self i rest, hc, h0⟩
        · intro _
          rfl
      · cases best with
        | none =>
          rw [pickLoop_cons_first rest cands hc h0]
          exact hext _ (ih _ _) (fun _ => h0)
        | some b =>
          rcases Nat.lt_trichotomy (bitsCount (s.wave i)) b with hlt | heq | hgt
          · rw [pickLoop_cons_lt rest cands hc h0 hlt]
            exact hext _ (ih _ _) (fun _ => h0)
          · rw [pickLoop_cons_eq rest cands hc h0 heq]
            exact hext _ (ih _ _) (fun _ => h0)
          · rw [pickLoop_cons_gt rest cands hc h0 hgt]
            exact hext _ (ih _ _) (fun _ => h0)
    · rw [pickLoop_cons_skip rest best cands (by simp [hc])]
      exact hext _ (ih _ _) (fun h => absurd h hc)

theorem pickLoop_run (s : GridState) :
    ∀ (l P : List Nat),
      (∀ j ∈ l, s.collapsed j = -1 → bitsCount (s.wave j) ≠ 0) →
      pickLoop s l (minCnt s P)
          (match minCnt s P with | none => [] | some m => tiesOf s P m)
        = some (minCnt s (P ++ l),
            match minCnt s (P ++ l) with
            | none => []
            | some m => tiesOf s (P ++ l) m) := by
  intro l
  induction l with
  | nil =>
    intro P _
    rw [pickLoop_nil, List.append_nil]
  | cons i rest ih =>
    intro P hl
    have hli : ∀ j ∈ rest, s.collapsed j = -1 → bitsCount (s.wave j) ≠ 0 :=
      fun j hj => hl j (List.mem_cons_of_mem i hj)
    have hassoc : P ++ i :: rest = (P ++ [i]) ++ rest := by simp
    rw [hassoc]
    by_cases hc : s.collapsed i = -1
    · have h0 : bitsCount (s.wave i) ≠ 0 := hl i (List.mem_cons_self i rest) hc
      cases hmc : minCnt s P with
      | none =>
        have hPnone : ∀ j ∈ P, s.collapsed j ≠ -1 := (minCnt_none_iff s P).mp hmc
        have hmc' : minCnt s (P ++ [i]) = some (bitsCount (s.wave i)) := by
          rw [minCnt_append_one, if_pos hc, hmc]
        have hties : tiesOf s (P ++ [i]) (bitsCount (s.wave i)) = [i] := by
          rw [tiesOf_append_one, if_pos ⟨hc, rfl⟩, tiesOf_nil_of_none hPnone,
            List.nil_append]
        rw [pickLoop_cons_first rest _ hc h0]
        have hih := ih (P ++ [i]) hli
        simp only [hmc', hties] at hih
        exact hih
      | some b =>
        have hble := minCnt_le s P none b hmc
        rcases Nat.lt_trichotomy (bitsCount (s.wave i)) b with hlt | heq | hgt
        · have hmc' : minCnt s (P ++ [i]) = some (bitsCount (s.wave i)) := by
            rw [minCnt_append_one, if_pos hc, hmc]
            dsimp only
            rw [Nat.min_eq_right (Nat.le_of_lt hlt)]
          have hties : tiesOf s (P ++ [i]) (bitsCount (s.wave i)) = [i] := by
            rw [tiesOf_append_one, if_pos ⟨hc, rfl⟩,
              tiesOf_nil_of_gt hble.2 hlt, List.nil_append]
          rw [pickLoop_cons_lt rest _ hc h0 hlt]
          have hih := ih (P ++ [i]) hli
          simp only [hmc', hties] at hih
          exact hih
        · have hmc' : minCnt s (P ++ [i]) = some b := by
            rw [minCnt_append_one, if_pos hc, hmc]
            dsimp only
            rw [heq, Nat.min_self]
          have hties : tiesOf s (P ++ [i]) b = tiesOf s P b ++ [i] := by
            rw [tiesOf_append_one, if_pos ⟨hc, heq⟩]
          rw [pickLoop_cons_eq rest _ hc h0 heq]
          have hih := ih (P ++ [i]) hli
          simp only [hmc', hties] at hih
          exact hih
        · have hmc' : minCnt s (P ++ [i]) = some b := by
            rw [minCnt_append_one, if_pos hc, hmc]
            dsimp only
            rw [Nat.min_eq_left (Nat.le_of_lt hgt)]
          have hties : tiesOf s (P ++ [i]) b = tiesOf s P b := by
            rw [tiesOf_append_one, if_neg (by rintro ⟨_, h2⟩; omega), List.append_nil]
          rw [pickLoop_cons_gt rest _ hc h0 hgt]
          have hih := ih (P ++ [i]) hli
          simp only [hmc', hties] at hih
          exact hih
    · have hmc' : minCnt s (P ++ [i]) = minCnt s P := by
        rw [minCnt_append_one, if_neg hc]
      have hties : ∀ m, tiesOf s (P ++ [i]) m = tiesOf s P m := by
        intro m
        rw [tiesOf_append_one, if_neg (by rintro ⟨h1, _⟩; exact hc h1), List.append_nil]
      rw [pickLoop_cons_skip rest _ _ (by simp [hc])]
      have hih := ih (P ++ [i]) hli
      simp only [hmc', hties] at hih
      exact hih

theorem mem_tiesOf {s : GridState} {P : List Nat} {m j : Nat} :
    j ∈ tiesOf s P m ↔ j ∈ P ∧ s.collapsed j = -1 ∧ bitsCount (s.wave j) = m := by
  simp [tiesOf, List.mem_filter, decide_eq_true_eq, and_assoc]

theorem fdiv_ofNat (m n : Nat) : Int.fdiv (m : Int) (n : Int) = ((m / n : Nat) : Int) := by
  cases m with
  | zero => simp [Int.fdiv]
  | succ k => rfl

theorem floor_mul_len_lt {q : Frac} (hq : q.isUnit01) {len : Nat} (hlen : 0 < len) :
    ((q.mul (Frac.ofInt len)).floor).toNat < len := by
  obtain ⟨hd, h0, h1⟩ := hq
  obtain ⟨a, ha⟩ := Int.eq_ofNat_of_zero_le h0
  have ha' : a < q.den := by omega
  have hfl : (q.mul (Frac.ofInt len)).floor = ((a * len / (q.den * 1) : Nat) : Int) := by
    show Int.fdiv (q.num * ((len : Int))) ((q.den * 1 : Nat) : Int) = _
    rw [ha]
    have hcast : ((a : Nat) : Int) * ((len : Int)) = ((a * len : Nat) : Int) := by
      push_cast
      ring
    rw [hcast, fdiv_ofNat]
  rw [hfl, Int.toNat_natCast, Nat.mul_one]
  rw [Nat.div_lt_iff_lt_mul hd]
  calc a * len < q.den * len := (Nat.mul_lt_mul_right hlen).mpr ha'
    _ = len * q.den := Nat.mul_comm _ _

theorem pickLowestEntropy_cases (s : GridState) (rand : Frac) :
    (pickLowestEntropy s rand = -1 ∧
      ∃ i ∈ List.range s.size, s.collapsed i = -1 ∧ bitsCount (s.wave i) = 0) ∨
    (pickLowestEntropy s rand = -2 ∧ (∀ i ∈ List.range s.size, s.collapsed i ≠ -1) ∧
      minCnt s (List.range s.size) = none) ∨
    (∃ m, minCnt s (List.range s.size) = some m ∧
      (∀ j ∈ List.range s.size, s.collapsed j = -1 → bitsCount (s.wave j) ≠ 0) ∧
      tiesOf s (List.range s.size) m ≠ [] ∧
      pickLowestEntropy s rand =
        ((tiesOf s (List.range s.size) m).getD
          ((rand.mul (Frac.ofInt (tiesOf s (List.range s.size) m).length)).floor).toNat
          0 : Int)) := by
  by_cases hzero : ∃ i ∈ List.range s.size, s.collapsed i = -1 ∧ bitsCount (s.wave i) = 0
  · left
    refine ⟨?_, hzero⟩
    have hpl := (pickLoop_none_iff s (List.range s.size) none []).mpr hzero
    simp only [pickLowestEntropy, hpl]
  · right
    push_neg at hzero
    have hnz : ∀ j ∈ List.range s.size, s.collapsed j = -1 → bitsCount (s.wave j) ≠ 0 :=
      fun j hj hjc => hzero j hj hjc
    have h00 : minCnt s ([] : List Nat) = none := rfl
    have hrun := pickLoop_run s (List.range s.size) [] hnz
    rw [List.nil_append] at hrun
    simp only [h00] at hrun
    cases hmc : minCnt s (List.range s.size) with
    | none =>
      left
      rw [hmc] at hrun
      simp only [] at hrun
      refine ⟨?_, (minCnt_none_iff s _).mp hmc, rfl⟩
      simp only [pickLowestEntropy, hrun]
      rfl
    | some m =>
      right
      refine ⟨m, rfl, hnz, ?_, ?_⟩
      · rcases minCnt_attained s (List.range s.size) none m hmc with hacc | ⟨j, hj, hjc, hjm⟩
        · cases hacc
        · intro hnil
          have : j ∈ tiesOf s (List.range s.size) m := mem_tiesOf.mpr ⟨hj, hjc, hjm⟩
          rw [hnil] at this
          cases this
      · rw [hmc] at hrun
        simp only [] at hrun
        have hne : tiesOf s (List.range s.size) m ≠ [] := by
          rcases minCnt_attained s (List.range s.size) none m hmc with hacc | ⟨j, hj, hjc, hjm⟩
          · cases hacc
          · intro hnil
            have : j ∈ tiesOf s (List.range s.size) m := mem_tiesOf.mpr ⟨hj, hjc, hjm⟩
            rw [hnil] at this
            cases this
        have hempty : (tiesOf s (List.range s.size) m).isEmpty = false := by
          cases htl : tiesOf s (List.range s.size) m with
          | nil => exact absurd htl hne
          | cons a t => rfl
        simp only [pickLowestEntropy, hrun, hempty]
        rfl

theorem pick_nonneg_spec {s : GridState} {rand : Frac} (hrand : rand.isUnit01) {n : Int}
    (h : pickLowestEntropy s rand = n) (hn : 0 ≤ n) :
    n.toNat < s.size ∧ s.collapsed n.toNat = -1 ∧ bitsCount (s.wave n.toNat) ≠ 0 := by
  rcases pickLowestEntropy_cases s rand with ⟨h1, _⟩ | ⟨h1, _, _⟩ | ⟨m, hm, hnz, hne, h1⟩
  · rw [h] at h1
    omega
  · rw [h] at h1
    omega
  · rw [h] at h1
    have hlen : 0 < (tiesOf s (List.range s.size) m).length := List.length_pos.mpr hne
    have hidx := floor_mul_len_lt hrand hlen
    have hget : (tiesOf s (List.range s.size) m).getD
        ((rand.mul (Frac.ofInt (tiesOf s (List.range s.size) m).length)).floor).toNat 0
        = (tiesOf s (List.range s.size) m).get ⟨_, hidx⟩ :=
      List.getD_eq_get _ _ hidx
    rw [hget] at h1
    have hmem := List.get_mem (tiesOf s (List.range s.size) m) _ hidx
    obtain ⟨hjr, hjc, hjm⟩ := mem_tiesOf.mp hmem
    have hnn : n.toNat = (tiesOf s (List.range s.size) m).get ⟨_, hidx⟩ := by
      rw [h1]
      exact Int.toNat_natCast _
    rw [hnn]
    exact ⟨List.mem_range.mp hjr, hjc, hnz _ hjr hjc⟩

/-! ### Collapse step and run measure -/

theorem collapseCell_step (s : GridState) (idx : Nat) (rand : Frac)
    (hunc : s.collapsed idx = -1) :
    (collapseCell s idx rand).1.width = s.width ∧
    (collapseCell s idx rand).1.height = s.height ∧
    (WFWaves s → WFWaves (collapseCell s idx rand).1) ∧
    (InvS s → InvS (collapseCell s idx rand).1) ∧
    Preserved s (collapseCell s idx rand).1 ∧
    ShrinkW s (collapseCell s idx rand).1 ∧
    ((collapseCell s idx rand).2 = true → (collapseCell s idx rand).1.collapsed idx ≠ -1) := by
  by_cases h : bitsCount (s.wave idx) = 0
  · rw [collapseCell_empty s idx rand h]
    exact ⟨rfl, rfl, id, id, Preserved_refl s, ShrinkW_refl s,
      fun hh => absurd hh Bool.false_ne_true⟩
  · rw [collapseCell_success s idx rand h]
    have hopts : bitsList (s.wave idx) ≠ [] :=
      fun he => h (by rw [bitsCount_eq_length, he]; rfl)
    have hchosen := collapsePick_mem (bitsList (s.wave idx)) rand hopts
    obtain ⟨hclt, hcbit⟩ := mem_bitsList.mp hchosen
    refine ⟨rfl, rfl, ?_, ?_, ?_, ?_, ?_⟩
    · intro hwf i
      dsimp only
      by_cases hin : i = idx
      · rw [if_pos hin]
        have : bitsSet 0 (collapsePick (bitsList (s.wave idx)) rand)
            = 2 ^ collapsePick (bitsList (s.wave idx)) rand := by
          rw [bitsSet, Nat.zero_or]
        rw [this]
        exact Nat.pow_lt_pow_right (by omega) hclt
      · rw [if_neg hin]
        exact hwf i
    · intro hinv i hi
      dsimp only at hi ⊢
      by_cases hin : i = idx
      · rw [if_pos hin, if_pos hin]
        refine ⟨by omega, by omega, ?_⟩
        have h2 : ((collapsePick (bitsList (s.wave idx)) rand : Int)).toNat
            = collapsePick (bitsList (s.wave idx)) rand := by omega
        rw [h2, bitsSet, Nat.zero_or]
      · rw [if_neg hin, if_neg hin]
        rw [if_neg hin] at hi
        exact hinv i hi
    · intro i hi
      have hin : i ≠ idx := fun he => hi (he ▸ hunc)
      dsimp only
      rw [if_neg hin, if_neg hin]
      exact ⟨rfl, rfl⟩
    · intro i
      dsimp only
      by_cases hin : i = idx
      · rw [if_pos hin, hin]
        intro j hj
        rw [testBit_bitsSet, Nat.zero_testBit, Bool.false_or] at hj
        have : collapsePick (bitsList (s.wave idx)) rand = j := of_decide_eq_true hj
        rw [← this]
        exact hcbit
      · rw [if_neg hin]
        exact Submask.refl _
    · intro _
      dsimp only
      rw [if_pos rfl]
      omega

theorem uncollapsedCount_le (s : GridState) : uncollapsedCount s ≤ s.size := by
  calc uncollapsedCount s ≤ (List.range s.size).length := List.countP_le_length _
    _ = s.size := List.length_range s.size

theorem uncollapsedCount_lt {s s' : GridState} (hsz : s'.size = s.size)
    (hpres : ∀ i, s.collapsed i ≠ -1 → s'.collapsed i ≠ -1) {p : Nat} (hp : p < s.size)
    (hpo : s.collapsed p = -1) (hpn : s'.collapsed p ≠ -1) :
    uncollapsedCount s' < uncollapsedCount s := by
  unfold uncollapsedCount
  rw [hsz]
  apply countP_lt_of_witness (j := p)
  · intro a _ ha
    rw [decide_eq_true_eq] at ha ⊢
    by_contra hca
    exact absurd ha (hpres a hca)
  · exact List.mem_range.mpr hp
  · rw [decide_eq_true_eq]
    exact hpo
  · rw [decide_eq_false_iff_not]
    exact hpn

/-! ### Run-level lemmas -/

theorem StepRel_refl (s : GridState) : StepRel s s := ⟨Preserved_refl s, ShrinkW_refl s⟩

theorem propagateRun_spec (s : GridState) (seeds : List Nat) (sz : Nat)
    (hsz : s.size = sz) (hseeds : ∀ n ∈ seeds, n < sz) (hwf : WFWaves s) :
    (propagateRun s seeds).1.width = s.width ∧
    (propagateRun s seeds).1.height = s.height ∧
    WFWaves (propagateRun s seeds).1 ∧
    (InvS s → InvS (propagateRun s seeds).1) ∧
    Preserved s (propagateRun s seeds).1 ∧
    ShrinkW s (propagateRun s seeds).1 ∧
    (propagateRun s seeds).2.2 = true := by
  obtain ⟨hW, hH, hWF, hINV, hPRE, hSHR, hFLAG⟩ :=
    propagateAux_spec (13 * totalBits s + seeds.length + 1) s seeds.reverse
      (seeds.foldl setAdd []) sz hsz
      (fun n hn => hseeds n (List.mem_reverse.mp hn)) hwf
      (propagateRun s seeds) rfl
  refine ⟨hW, hH, hWF, hINV, hPRE, hSHR, hFLAG ?_⟩
  rw [List.length_reverse]
  omega

theorem pick_values (s : GridState) (rand : Frac) :
    pickLowestEntropy s rand = -1 ∨ pickLowestEntropy s rand = -2 ∨
      0 ≤ pickLowestEntropy s rand := by
  rcases pickLowestEntropy_cases s rand with ⟨h1, _⟩ | ⟨h1, _, _⟩ | ⟨m, _, _, _, h1⟩
  · exact Or.inl h1
  · exact Or.inr (Or.inl h1)
  · right; right
    rw [h1]
    omega

theorem runLoop_succ_done {s : GridState} {rng : Nat → Frac} {k : Nat} (fuel : Nat)
    (h2 : pickLowestEntropy s (rng k) = -2) :
    runLoop (fuel + 1) s rng k = [(WEvent.done, s)] := by
  simp only [runLoop]
  rw [if_pos h2]

theorem runLoop_succ_contra {s : GridState} {rng : Nat → Frac} {k : Nat} (fuel : Nat)
    (h2 : pickLowestEntropy s (rng k) ≠ -2) (h1 : pickLowestEntropy s (rng k) = -1) :
    runLoop (fuel + 1) s rng k = [(WEvent.contradiction (-1), s)] := by
  simp only [runLoop]
  rw [if_neg h2, if_pos h1]

theorem runLoop_succ_go {s : GridState} {rng : Nat → Frac} {k : Nat} (fuel : Nat)
    (h2 : pickLowestEntropy s (rng k) ≠ -2) (h1 : pickLowestEntropy s (rng k) ≠ -1)
    (hok : (collapseCell s (pickLowestEntropy s (rng k)).toNat (rng (k + 1))).2 = true) :
    runLoop (fuel + 1) s rng k =
      (WEvent.collapse (pickLowestEntropy s (rng k)).toNat
          ((collapseCell s (pickLowestEntropy s (rng k)).toNat (rng (k + 1))).1.collapsed
            (pickLowestEntropy s (rng k)).toNat),
        (collapseCell s (pickLowestEntropy s (rng k)).toNat (rng (k + 1))).1)
      :: (WEvent.propagate
            (propagateRun (collapseCell s (pickLowestEntropy s (rng k)).toNat (rng (k + 1))).1
              [(pickLowestEntropy s (rng k)).toNat]).2.1,
          (propagateRun (collapseCell s (pickLowestEntropy s (rng k)).toNat (rng (k + 1))).1
            [(pickLowestEntropy s (rng k)).toNat]).1)
      :: runLoop fuel
          (propagateRun (collapseCell s (pickLowestEntropy s (rng k)).toNat (rng (k + 1))).1
            [(pickLowestEntropy s (rng k)).toNat]).1 rng (k + 2) := by
  simp only [runLoop]
  rw [if_neg h2, if_neg h1, if_neg (by rw [hok]; exact fun hx => Bool.noConfusion hx)]

theorem runLoop_spec (rng : Nat → Frac) (hrng : ValidRng rng) :
    ∀ (fuel : Nat) (s : GridState) (k : Nat),
      WFWaves s → InvS s → uncollapsedCount s < fuel →
      runLoop fuel s rng k ≠ [] ∧
      (∃ e, (runLoop fuel s rng k).getLast? = some e ∧ isTerminal e.1 = true) ∧
      (∀ p ∈ (runLoop fuel s rng k).dropLast, isTerminal p.1 = false) ∧
      List.Chain' StepRel (s :: (runLoop fuel s rng k).map Prod.snd) ∧
      (∀ st ∈ (runLoop fuel s rng k).map Prod.snd,
        WFWaves st ∧ InvS st ∧ ShrinkW s st ∧ Preserved s st ∧
        st.width = s.width ∧ st.height = s.height) := by
  intro fuel
  induction fuel with
  | zero =>
    intro s k _ _ hcnt
    omega
  | succ fuel ih =>
    intro s k hwf hinv hcnt
    by_cases h2 : pickLowestEntropy s (rng k) = -2
    · rw [runLoop_succ_done fuel h2]
      refine ⟨List.cons_ne_nil _ _, ⟨(WEvent.done, s), rfl, rfl⟩, ?_, ?_, ?_⟩
      · intro p hp
        simp at hp
      · exact List.chain'_cons.mpr ⟨StepRel_refl s, List.chain'_singleton s⟩
      · intro st hst
        simp only [List.map_cons, List.map_nil, List.mem_singleton] at hst
        subst hst
        exact ⟨hwf, hinv, ShrinkW_refl _, Preserved_refl _, rfl, rfl⟩
    · by_cases h1 : pickLowestEntropy s (rng k) = -1
      · rw [runLoop_succ_contra fuel h2 h1]
        refine ⟨List.cons_ne_nil _ _, ⟨(WEvent.contradiction (-1), s), rfl, rfl⟩, ?_, ?_, ?_⟩
        · intro p hp
          simp at hp
        · exact List.chain'_cons.mpr ⟨StepRel_refl s, List.chain'_singleton s⟩
        · intro st hst
          simp only [List.map_cons, List.map_nil, List.mem_singleton] at hst
          subst hst
          exact ⟨hwf, hinv, ShrinkW_refl _, Preserved_refl _, rfl, rfl⟩
      · have h0le : 0 ≤ pickLowestEntropy s (rng k) := by
          rcases pick_values s (rng k) with h | h | h
          · exact absurd h h1
          · exact absurd h h2
          · exact h
        obtain ⟨hplt, hpunc, hpcnt⟩ := pick_nonneg_spec (hrng k) rfl h0le
        have hok : (collapseCell s (pickLowestEntropy s (rng k)).toNat (rng (k + 1))).2
            = true := by
          rw [collapseCell_success s _ _ hpcnt]
        rw [runLoop_succ_go fuel h2 h1 hok]
        set pn := (pickLowestEntropy s (rng k)).toNat with hpndef
        set c1 := (collapseCell s pn (rng (k + 1))).1 with hc1def
        set pr := propagateRun c1 [pn] with hprdef
        obtain ⟨cw, chh, cwf, cinv, cpre, cshr, ccol⟩ := collapseCell_step s pn (rng (k + 1)) hpunc
        have hc1wf : WFWaves c1 := cwf hwf
        have hc1inv : InvS c1 := cinv hinv
        have hc1sz : c1.size = s.size := size_eq_of_dims cw chh
        obtain ⟨pw, ph, pwf, pinv, ppre, pshr, _⟩ :=
          propagateRun_spec c1 [pn] c1.size rfl
            (by
              intro n hn
              rw [List.mem_singleton.mp hn, hc1sz]
              exact hplt)
            hc1wf
        have hprinv : InvS pr.1 := pinv hc1inv
        have hcolc : c1.collapsed pn ≠ -1 := ccol hok
        have hprcol : pr.1.collapsed pn ≠ -1 := by
          obtain ⟨hcq, _⟩ := ppre pn hcolc
          rw [hcq]
          exact hcolc
        have hszpr : pr.1.size = s.size := by
          rw [size_eq_of_dims pw ph]
          exact hc1sz
        have hucnt : uncollapsedCount pr.1 < uncollapsedCount s := by
          apply uncollapsedCount_lt hszpr ?_ hplt hpunc hprcol
          intro i hi
          obtain ⟨he, _⟩ := cpre i hi
          obtain ⟨he2, _⟩ := ppre i (by rw [he]; exact hi)
          rw [he2, he]
          exact hi
        obtain ⟨ihne, ⟨le, hle, hlter⟩, ihdrop, ihchain, ihall⟩ :=
          ih pr.1 (k + 2) pwf hprinv (by omega)
        refine ⟨List.cons_ne_nil _ _, ?_, ?_, ?_, ?_⟩
        · rcases hLc : runLoop fuel pr.1 rng (k + 2) with _ | ⟨l0, lt⟩
          · exact absurd hLc ihne
          · refine ⟨le, ?_, hlter⟩
            rw [List.getLast?_cons_cons, List.getLast?_cons_cons]
            rw [hLc] at hle
            exact hle
        · rcases hLc : runLoop fuel pr.1 rng (k + 2) with _ | ⟨l0, lt⟩
          · exact absurd hLc ihne
          · intro p hp
            rw [List.dropLast_cons₂, List.dropLast_cons₂] at hp
            rcases List.mem_cons.mp hp with rfl | hp2
            · rfl
            · rcases List.mem_cons.mp hp2 with rfl | hp3
              · rfl
              · rw [hLc] at ihdrop
                exact ihdrop p hp3
        · simp only [List.map_cons]
          exact List.chain'_cons.mpr ⟨⟨cpre, cshr⟩,
            List.chain'_cons.mpr ⟨⟨ppre, pshr⟩, ihchain⟩⟩
        · intro st hst
          simp only [List.map_cons] at hst
          rcases List.mem_cons.mp hst with rfl | hst2
          · exact ⟨hc1wf, hc1inv, cshr, cpre, cw, chh⟩
          · rcases List.mem_cons.mp hst2 with rfl | hst3
            · exact ⟨pwf, hprinv, ShrinkW_trans cshr pshr, Preserved_trans cpre ppre,
                pw.trans cw, ph.trans chh⟩
            · obtain ⟨qwf, qinv, qshr, qpre, qw, qh⟩ := ihall st hst3
              exact ⟨qwf, qinv, ShrinkW_trans (ShrinkW_trans cshr pshr) qshr,
                Preserved_trans (Preserved_trans cpre ppre) qpre,
                qw.trans (pw.trans cw), qh.trans (ph.trans chh)⟩

theorem runSimT_fail {s0 : GridState} {start : Nat} {rng : Nat → Frac}
    (h0 : bitsCount (s0.wave start) = 0) :
    runSimT s0 start rng = [(WEvent.contradiction start, s0)] := by
  simp only [runSimT, collapseCell_empty s0 start (rng 0) h0]
  exact if_pos trivial

theorem runSimT_go {s0 : GridState} {start : Nat} {rng : Nat → Frac}
    (hok : (collapseCell s0 start (rng 0)).2 = true) :
    runSimT s0 start rng =
      (WEvent.collapse start ((collapseCell s0 start (rng 0)).1.collapsed start),
        (collapseCell s0 start (rng 0)).1)
      :: (WEvent.propagate (propagateRun (collapseCell s0 start (rng 0)).1 [start]).2.1,
          (propagateRun (collapseCell s0 start (rng 0)).1 [start]).1)
      :: runLoop
          ((collapseCell s0 start (rng 0)).1.width
              * (collapseCell s0 start (rng 0)).1.height + 1)
          (propagateRun (collapseCell s0 start (rng 0)).1 [start]).1 rng 1 := by
  simp only [runSimT]
  rw [if_neg (by rw [hok]; exact fun hx => Bool.noConfusion hx)]

theorem runSimT_spec (s0 : GridState) (start : Nat) (rng : Nat → Frac)
    (hrng : ValidRng rng) (hwf : WFWaves s0) (hinv : InvS s0)
    (hstart : s0.collapsed start = -1) (hslt : start < s0.size) :
    runSimT s0 start rng ≠ [] ∧
    (∃ e, (runSimT s0 start rng).getLast? = some e ∧ isTerminal e.1 = true) ∧
    (∀ p ∈ (runSimT s0 start rng).dropLast, isTerminal p.1 = false) ∧
    List.Chain' StepRel (s0 :: (runSimT s0 start rng).map Prod.snd) ∧
    (∀ st ∈ (runSimT s0 start rng).map Prod.snd,
      WFWaves st ∧ InvS st ∧ ShrinkW s0 st ∧ Preserved s0 st ∧
      st.width = s0.width ∧ st.height = s0.height) := by
  by_cases h0 : bitsCount (s0.wave start) = 0
  · rw [runSimT_fail h0]
    refine ⟨List.cons_ne_nil _ _, ⟨(WEvent.contradiction start, s0), rfl, rfl⟩, ?_, ?_, ?_⟩
    · intro p hp
      simp at hp
    · exact List.chain'_cons.mpr ⟨StepRel_refl s0, List.chain'_singleton s0⟩
    · intro st hst
      simp only [List.map_cons, List.map_nil, List.mem_singleton] at hst
      subst hst
      exact ⟨hwf, hinv, ShrinkW_refl _, Preserved_refl _, rfl, rfl⟩
  · have hok : (collapseCell s0 start (rng 0)).2 = true := by
      rw [collapseCell_success s0 _ _ h0]
    rw [runSimT_go hok]
    set c1 := (collapseCell s0 start (rng 0)).1 with hc1def
    set pr := propagateRun c1 [start] with hprdef
    obtain ⟨cw, chh, cwf, cinv, cpre, cshr, ccol⟩ := collapseCell_step s0 start (rng 0) hstart
    have hc1wf : WFWaves c1 := cwf hwf
    have hc1inv : InvS c1 := cinv hinv
    have hc1sz : c1.size = s0.size := size_eq_of_dims cw chh
    obtain ⟨pw, ph, pwf, pinv, ppre, pshr, _⟩ :=
      propagateRun_spec c1 [start] c1.size rfl
        (by
          intro n hn
          rw [List.mem_singleton.mp hn, hc1sz]
          exact hslt)
        hc1wf
    have hprinv : InvS pr.1 := pinv hc1inv
    have hfuel : uncollapsedCount pr.1 < c1.width * c1.height + 1 := by
      have h1 : uncollapsedCount pr.1 ≤ pr.1.size := uncollapsedCount_le pr.1
      have h2 : pr.1.size = c1.size := size_eq_of_dims pw ph
      have h3 : c1.size = c1.width * c1.height := rfl
      omega
    obtain ⟨ihne, ⟨le, hle, hlter⟩, ihdrop, ihchain, ihall⟩ :=
      runLoop_spec rng hrng (c1.width * c1.height + 1) pr.1 1 pwf hprinv hfuel
    refine ⟨List.cons_ne_nil _ _, ?_, ?_, ?_, ?_⟩
    · rcases hLc : runLoop (c1.width * c1.height + 1) pr.1 rng 1 with _ | ⟨l0, lt⟩
      · exact absurd hLc ihne
      · refine ⟨le, ?_, hlter⟩
        rw [List.getLast?_cons_cons, List.getLast?_cons_cons]
        rw [hLc] at hle
        exact hle
    · rcases hLc : runLoop (c1.width * c1.height + 1) pr.1 rng 1 with _ | ⟨l0, lt⟩
      · exact absurd hLc ihne
      · intro p hp
        rw [List.dropLast_cons₂, List.dropLast_cons₂] at hp
        rcases List.mem_cons.mp hp with rfl | hp2
        · rfl
        · rcases List.mem_cons.mp hp2 with rfl | hp3
          · rfl
          · rw [hLc] at ihdrop
            exact ihdrop p hp3
    · simp only [List.map_cons]
      exact List.chain'_cons.mpr ⟨⟨cpre, cshr⟩,
        List.chain'_cons.mpr ⟨⟨ppre, pshr⟩, ihchain⟩⟩
    · intro st hst
      simp only [List.map_cons] at hst
      rcases List.mem_cons.mp hst with rfl | hst2
      · exact ⟨hc1wf, hc1inv, cshr, cpre, cw, chh⟩
      · rcases List.mem_cons.mp hst2 with rfl | hst3
        · exact ⟨pwf, hprinv, ShrinkW_trans cshr pshr, Preserved_trans cpre ppre,
            pw.trans cw, ph.trans chh⟩
        · obtain ⟨qwf, qinv, qshr, qpre, qw, qh⟩ := ihall st hst3
          exact ⟨qwf, qinv, ShrinkW_trans (ShrinkW_trans cshr pshr) qshr,
            Preserved_trans (Preserved_trans cpre ppre) qpre,
            qw.trans (pw.trans cw), qh.trans (ph.trans chh)⟩

/-! ### Reset state characterization -/

theorem nested_foldl_eq_flat {γ : Type} (g : γ → Nat → Nat → γ) (l1 l2 : List Nat) (c0 : γ) :
    l1.foldl (fun c y => l2.foldl (fun c x => g c y x) c) c0
      = (l1.flatMap (fun y => l2.map (fun x => (y, x)))).foldl (fun c p => g c p.1 p.2) c0 := by
  induction l1 generalizing c0 with
  | nil => rfl
  | cons a t ih =>
    rw [List.foldl_cons, List.flatMap_cons, List.foldl_append, ih]
    congr 1
    rw [List.foldl_map]

theorem removeHouseTiles_wave (s : GridState) (idx i : Nat) :
    (removeHouseTiles s idx).wave i =
      if i = idx then
        (List.range nTiles).foldl
          (fun m t => if (tileAtIdx t).terrain = Terrain.house then bitsClear m t else m)
          (s.wave idx)
      else s.wave i := rfl

theorem removeHouseFold_all :
    (List.range nTiles).foldl
      (fun m t => if (tileAtIdx t).terrain = Terrain.house then bitsClear m t else m)
      8388607 = 4095 := by decide

theorem removeHouseFold_noHouse :
    (List.range nTiles).foldl
      (fun m t => if (tileAtIdx t).terrain = Terrain.house then bitsClear m t else m)
      4095 = 4095 := by decide

theorem resetFlat_spec (w h : Nat) :
    ∀ (L : List (Nat × Nat)) (s : GridState),
      (∀ i, s.wave i = 4095 ∨ s.wave i = 8388607) →
      (∀ i,
        (L.foldl (fun s p =>
            if p.2 = 0 ∨ p.1 = 0 ∨ p.2 = w - 1 ∨ p.1 = h - 1 then
              removeHouseTiles s (p.1 * w + p.2)
            else s) s).wave i
          = if ∃ p ∈ L, (p.2 = 0 ∨ p.1 = 0 ∨ p.2 = w - 1 ∨ p.1 = h - 1) ∧ p.1 * w + p.2 = i
            then 4095 else s.wave i) ∧
      ((L.foldl (fun s p =>
          if p.2 = 0 ∨ p.1 = 0 ∨ p.2 = w - 1 ∨ p.1 = h - 1 then
            removeHouseTiles s (p.1 * w + p.2)
          else s) s).width = s.width ∧
        (L.foldl (fun s p =>
          if p.2 = 0 ∨ p.1 = 0 ∨ p.2 = w - 1 ∨ p.1 = h - 1 then
            removeHouseTiles s (p.1 * w + p.2)
          else s) s).height = s.height ∧
        (L.foldl (fun s p =>
          if p.2 = 0 ∨ p.1 = 0 ∨ p.2 = w - 1 ∨ p.1 = h - 1 then
            removeHouseTiles s (p.1 * w + p.2)
          else s) s).collapsed = s.collapsed ∧
        (L.foldl (fun s p =>
          if p.2 = 0 ∨ p.1 = 0 ∨ p.2 = w - 1 ∨ p.1 = h - 1 then
            removeHouseTiles s (p.1 * w + p.2)
          else s) s).dirty = s.dirty) := by
  intro L
  induction L with
  | nil =>
    intro s hvals
    refine ⟨?_, rfl, rfl, rfl, rfl⟩
    intro i
    simp
  | cons q t ih =>
    intro s hvals
    rw [List.foldl_cons]
    by_cases hb : q.2 = 0 ∨ q.1 = 0 ∨ q.2 = w - 1 ∨ q.1 = h - 1
    · rw [if_pos hb]
      have hrm : ∀ i, (removeHouseTiles s (q.1 * w + q.2)).wave i
          = if i = q.1 * w + q.2 then 4095 else s.wave i := by
        intro i
        rw [removeHouseTiles_wave]
        by_cases hi : i = q.1 * w + q.2
        · rw [if_pos hi, if_pos hi]
          rcases hvals (q.1 * w + q.2) with hv | hv
          · rw [hv, removeHouseFold_noHouse]
          · rw [hv, removeHouseFold_all]
        · rw [if_neg hi, if_neg hi]
      have hvals' : ∀ i, (removeHouseTiles s (q.1 * w + q.2)).wave i = 4095 ∨
          (removeHouseTiles s (q.1 * w + q.2)).wave i = 8388607 := by
        intro i
        rw [hrm]
        by_cases hi : i = q.1 * w + q.2
        · rw [if_pos hi]; exact Or.inl rfl
        · rw [if_neg hi]; exact hvals i
      obtain ⟨ihw, ihf⟩ := ih _ hvals'
      refine ⟨?_, ihf.1, ihf.2.1, ihf.2.2.1.trans rfl, ihf.2.2.2.trans rfl⟩
      intro i
      rw [ihw i, hrm i]
      by_cases ht : ∃ p ∈ t, (p.2 = 0 ∨ p.1 = 0 ∨ p.2 = w - 1 ∨ p.1 = h - 1) ∧ p.1 * w + p.2 = i
      · rw [if_pos ht]
        rw [if_pos ?_]
        obtain ⟨p, hp, hpb, hpi⟩ := ht
        exact ⟨p, List.mem_cons_of_mem q hp, hpb, hpi⟩
      · rw [if_neg ht]
        by_cases hi : i = q.1 * w + q.2
        · rw [if_pos hi, if_pos ⟨q, List.mem_cons_self q t, hb, hi.symm⟩]
        · rw [if_neg hi]
          rw [if_neg ?_]
          rintro ⟨p, hp, hpb, hpi⟩
          rcases List.mem_cons.mp hp with rfl | hpt
          · exact hi hpi.symm
          · exact ht ⟨p, hpt, hpb, hpi⟩
    · rw [if_neg hb]
      obtain ⟨ihw, ihf⟩ := ih _ hvals
      refine ⟨?_, ihf⟩
      intro i
      rw [ihw i]
      by_cases ht : ∃ p ∈ t, (p.2 = 0 ∨ p.1 = 0 ∨ p.2 = w - 1 ∨ p.1 = h - 1) ∧ p.1 * w + p.2 = i
      · rw [if_pos ht]
        rw [if_pos ?_]
        obtain ⟨p, hp, hpb, hpi⟩ := ht
        exact ⟨p, List.mem_cons_of_mem q hp, hpb, hpi⟩
      · rw [if_neg ht]
        rw [if_neg ?_]
        rintro ⟨p, hp, hpb, hpi⟩
        rcases List.mem_cons.mp hp with rfl | hpt
        · exact hb hpb
        · exact ht ⟨p, hpt, hpb, hpi⟩

theorem bitsAll_val : bitsAll = 8388607 := by decide

theorem resetState_eq (w h : Nat) :
    resetState w h =
      ((List.range h).flatMap (fun y => (List.range w).map (fun x => (y, x)))).foldl
        (fun s p =>
          if p.2 = 0 ∨ p.1 = 0 ∨ p.2 = w - 1 ∨ p.1 = h - 1 then
            removeHouseTiles s (p.1 * w + p.2)
          else s)
        ⟨w, h, fun _ => bitsAll, fun _ => -1, []⟩ :=
  nested_foldl_eq_flat _ _ _ _

theorem resetState_base_vals (w h : Nat) :
    ∀ j, (⟨w, h, fun _ => bitsAll, fun _ => -1, []⟩ : GridState).wave j = 4095 ∨
      (⟨w, h, fun _ => bitsAll, fun _ => -1, []⟩ : GridState).wave j = 8388607 :=
  fun _ => Or.inr bitsAll_val

theorem resetState_wave_ex (w h : Nat) (i : Nat) :
    (resetState w h).wave i =
      if ∃ p ∈ (List.range h).flatMap (fun y => (List.range w).map (fun x => (y, x))),
          (p.2 = 0 ∨ p.1 = 0 ∨ p.2 = w - 1 ∨ p.1 = h - 1) ∧ p.1 * w + p.2 = i
      then 4095 else 8388607 := by
  rw [resetState_eq]
  obtain ⟨hw, _⟩ := resetFlat_spec w h
    ((List.range h).flatMap (fun y => (List.range w).map (fun x => (y, x)))) _
    (resetState_base_vals w h)
  rw [hw i]
  have hbase : (⟨w, h, fun _ => bitsAll, fun _ => -1, []⟩ : GridState).wave i = 8388607 :=
    bitsAll_val
  rw [hbase]

theorem mem_coordList {w h y x : Nat} :
    (y, x) ∈ (List.range h).flatMap (fun y => (List.range w).map (fun x => (y, x))) ↔
      y < h ∧ x < w := by
  simp only [List.mem_flatMap, List.mem_map, List.mem_range]
  constructor
  · rintro ⟨a, ha, b, hb, hab⟩
    obtain ⟨h1, h2⟩ := Prod.mk.injEq _ _ _ _ ▸ hab
    constructor
    · rw [← h1]; exact ha
    · rw [← h2]; exact hb
  · rintro ⟨hy, hx⟩
    exact ⟨y, hy, x, hx, rfl⟩

theorem resetState_wave (w h i : Nat) (hi : i < w * h) :
    (resetState w h).wave i =
      if i % w = 0 ∨ i / w = 0 ∨ i % w = w - 1 ∨ i / w = h - 1 then 4095 else 8388607 := by
  have hwpos : 0 < w := by
    rcases Nat.eq_zero_or_pos w with h0 | h0
    · subst h0
      simp at hi
    · exact h0
  rw [resetState_wave_ex]
  by_cases hb : i % w = 0 ∨ i / w = 0 ∨ i % w = w - 1 ∨ i / w = h - 1
  · rw [if_pos hb, if_pos ?_]
    refine ⟨(i / w, i % w), ?_, hb, ?_⟩
    · rw [mem_coordList]
      refine ⟨?_, Nat.mod_lt _ hwpos⟩
      rw [Nat.div_lt_iff_lt_mul hwpos]
      calc i < w * h := hi
        _ = h * w := Nat.mul_comm _ _
    · calc i / w * w + i % w = w * (i / w) + i % w := by rw [Nat.mul_comm (i / w) w]
        _ = i := Nat.div_add_mod i w
  · rw [if_neg hb, if_neg ?_]
    rintro ⟨p, hp, hpb, hpi⟩
    rcases p with ⟨py, px⟩
    obtain ⟨hyh, hxw⟩ := mem_coordList.mp hp
    dsimp only at hpb hpi
    have hmod : i % w = px := by
      rw [← hpi, Nat.mul_comm py w, Nat.mul_add_mod]
      exact Nat.mod_eq_of_lt hxw
    have hdiv : i / w = py := by
      rw [← hpi]
      rw [Nat.mul_comm py w, Nat.mul_add_div hwpos]
      rw [Nat.div_eq_of_lt hxw]
      omega
    apply hb
    rw [hmod, hdiv]
    exact hpb

theorem resetState_fields (w h : Nat) :
    (resetState w h).width = w ∧ (resetState w h).height = h ∧
    (∀ i, (resetState w h).collapsed i = -1) ∧ (resetState w h).dirty = [] := by
  rw [resetState_eq]
  obtain ⟨_, hfw, hfh, hfc, hfd⟩ := resetFlat_spec w h
    ((List.range h).flatMap (fun y => (List.range w).map (fun x => (y, x)))) _
    (resetState_base_vals w h)
  exact ⟨hfw, hfh, fun i => congrFun hfc i, hfd⟩

theorem resetState_WF (w h : Nat) : WFWaves (resetState w h) := by
  intro i
  rw [resetState_wave_ex]
  by_cases hb : ∃ p ∈ (List.range h).flatMap (fun y => (List.range w).map (fun x => (y, x))),
      (p.2 = 0 ∨ p.1 = 0 ∨ p.2 = w - 1 ∨ p.1 = h - 1) ∧ p.1 * w + p.2 = i
  · rw [if_pos hb]
    decide
  · rw [if_neg hb]
    decide

theorem resetState_Inv (w h : Nat) : InvS (resetState w h) := by
  intro i hi
  exact absurd ((resetState_fields w h).2.2.1 i) hi

/-! ### Claim-level helper lemmas -/

theorem validRng_getD (l : List Frac) (hl : ∀ q ∈ l, q.isUnit01) :
    ValidRng (fun n => l.getD n ⟨0, 1⟩) := by
  intro n
  show (l.getD n ⟨0, 1⟩).isUnit01
  by_cases hn : n < l.length
  · rw [List.getD_eq_get l ⟨0, 1⟩ hn]
    exact hl _ (List.get_mem l n hn)
  · rw [List.getD_eq_getElem?_getD, List.getElem?_eq_none (by omega), Option.getD_none]
    decide

theorem constZero_valid : ValidRng (fun _ => (⟨0, 1⟩ : Frac)) := by
  intro n
  show (⟨0, 1⟩ : Frac).isUnit01
  decide

theorem exRng_valid : ValidRng exRng := by
  unfold exRng
  exact validRng_getD exRngList (by decide)

theorem StepRel_trans {s1 s2 s3 : GridState} (h1 : StepRel s1 s2) (h2 : StepRel s2 s3) :
    StepRel s1 s3 :=
  ⟨Preserved_trans h1.1 h2.1, ShrinkW_trans h1.2 h2.2⟩

theorem chain'_StepRel_get {l : List GridState} (hch : List.Chain' StepRel l)
    {p q : Nat} (hp : p < l.length) (hq : q < l.length) (hpq : p ≤ q) :
    StepRel (l.get ⟨p, hp⟩) (l.get ⟨q, hq⟩) := by
  rcases Nat.lt_or_ge p q with hlt | hge
  · haveI : IsTrans GridState StepRel := ⟨fun _ _ _ h1 h2 => StepRel_trans h1 h2⟩
    have hpw := List.chain'_iff_pairwise.mp hch
    exact (List.pairwise_iff_get.mp hpw) ⟨p, hp⟩ ⟨q, hq⟩ hlt
  · have hpq' : p = q := by omega
    subst hpq'
    exact StepRel_refl _

theorem house_testBit_boundary_mask {t : Nat}
    (ht : (tileAtIdx t).terrain = Terrain.house) : (4095 : Nat).testBit t = false := by
  by_cases h23 : t < 23
  · have key : ∀ u ∈ List.range 23, (tileAtIdx u).terrain = Terrain.house →
        (4095 : Nat).testBit u = false := by decide
    exact key t (List.mem_range.mpr h23) ht
  · refine Nat.testBit_eq_false_of_lt ?_
    calc (4095 : Nat) < 2 ^ 23 := by norm_num
      _ ≤ 2 ^ t := Nat.pow_le_pow_right (by norm_num) (by omega)

/-! ### The claims -/

/-- Claim C3 (corrected): the boundary entropy is `T − 11 = 12`, not `T − 1`.
Immediately after construction, `getTile` returns `none` on every cell,
`getEntropy` returns `23` on interior cells and `12` on boundary cells:
`_removeHouseTiles` strips all eleven house tiles there, not one tile. -/
theorem C3_fresh_grid_state (w h i : Nat) (hi : i < w * h) :
    getTile (resetState w h) i = none ∧
    getEntropy (resetState w h) i =
      (if i % w = 0 ∨ i / w = 0 ∨ i % w = w - 1 ∨ i / w = h - 1 then 23 - 11 else 23) := by
  constructor
  · unfold getTile
    rw [if_pos ((resetState_fields w h).2.2.1 i)]
  · unfold getEntropy
    rw [resetState_wave w h i hi]
    by_cases hb : i % w = 0 ∨ i / w = 0 ∨ i % w = w - 1 ∨ i / w = h - 1
    · rw [if_pos hb, if_pos hb]
      decide
    · rw [if_neg hb, if_neg hb]
      decide

/-- Witness for C3: on a fresh 4×4 grid, corner cell `0` (boundary) and
centre cell `5` (interior). -/
theorem C3_fresh_grid_state_witness :
    0 < 4 * 4 ∧ 5 < 4 * 4 ∧
    getTile (resetState 4 4) 5 = none ∧
    getEntropy (resetState 4 4) 0 = 23 - 11 ∧
    getEntropy (resetState 4 4) 5 = 23 := by
  refine ⟨by decide, by decide, (C3_fresh_grid_state 4 4 5 (by decide)).1, ?_, ?_⟩
  · rw [(C3_fresh_grid_state 4 4 0 (by decide)).2]
    decide
  · rw [(C3_fresh_grid_state 4 4 5 (by decide)).2]
    decide

set_option maxRecDepth 4000 in
/-- Counterexample to C3 as stated: on a fresh 4×4 grid the boundary cell `0`
has entropy `12`, which is not `T − 1 = 22`. -/
theorem C3_boundary_entropy_counterexample :
    getTile (resetState 4 4) 0 = none ∧
    getEntropy (resetState 4 4) 0 = 12 ∧
    (12 : Nat) ≠ nTiles - 1 := by
  decide

/-- Claim C6: confirmed.  `_propagate` terminates for every state whose wave
masks are `N_TILES`-bit and every in-range seed list: the fuelled worklist
loop drains (flag `true`) and every cell's possibility set only shrinks. -/
theorem C6_propagation_terminates (s : GridState) (seeds : List Nat)
    (hwf : WFWaves s) (hseeds : ∀ n ∈ seeds, n < s.size) :
    (propagateRun s seeds).2.2 = true ∧
    ShrinkW s (propagateRun s seeds).1 := by
  obtain ⟨_, _, _, _, _, hshr, hflag⟩ := propagateRun_spec s seeds s.size rfl hseeds hwf
  exact ⟨hflag, hshr⟩

/-- Witness for C6: propagation from seed `0` on a fresh 2×2 grid drains. -/
theorem C6_propagation_terminates_witness :
    (∀ i, (resetState 2 2).wave i < 2 ^ nTiles) ∧
    (propagateRun (resetState 2 2) [0]).2.2 = true :=
  ⟨resetState_WF 2 2,
    (C6_propagation_terminates (resetState 2 2) [0] (resetState_WF 2 2) (by decide)).1⟩

/-- Claim C8: confirmed.  Collapsing a cell with an empty possibility set
returns the failure flag `false` and leaves the entire grid state unchanged. -/
theorem C8_collapse_empty_atomic (s : GridState) (idx : Nat) (rand : Frac)
    (h : bitsCount (s.wave idx) = 0) :
    (collapseCell s idx rand).2 = false ∧ (collapseCell s idx rand).1 = s := by
  rw [collapseCell_empty s idx rand h]
  exact ⟨rfl, rfl⟩

/-- Witness for C8: a 1×1 grid whose single cell has the empty mask. -/
theorem C8_collapse_empty_atomic_witness :
    bitsCount ((⟨1, 1, fun _ => 0, fun _ => -1, []⟩ : GridState).wave 0) = 0 ∧
    (collapseCell ⟨1, 1, fun _ => 0, fun _ => -1, []⟩ 0 ⟨1, 2⟩).2 = false :=
  ⟨by decide,
    (C8_collapse_empty_atomic ⟨1, 1, fun _ => 0, fun _ => -1, []⟩ 0 ⟨1, 2⟩ (by decide)).1⟩

/-- Claim C10: confirmed.  On a non-empty possibility set, `_collapseCell`
succeeds and the assigned tile index was a member of the cell's possibility
set before the call, for every draw. -/
theorem C10_collapse_picks_member (s : GridState) (idx : Nat) (rand : Frac)
    (h : bitsCount (s.wave idx) ≠ 0) :
    (collapseCell s idx rand).2 = true ∧
    0 ≤ (collapseCell s idx rand).1.collapsed idx ∧
    (s.wave idx).testBit ((collapseCell s idx rand).1.collapsed idx).toNat = true := by
  rw [collapseCell_success s idx rand h]
  have hne : bitsList (s.wave idx) ≠ [] := fun he => h (by rw [bitsCount_eq_length, he]; rfl)
  have hmem := collapsePick_mem (bitsList (s.wave idx)) rand hne
  obtain ⟨hlt, hbit⟩ := mem_bitsList.mp hmem
  refine ⟨rfl, ?_, ?_⟩
  · dsimp only
    rw [if_pos rfl]
    exact Int.natCast_nonneg _
  · dsimp only
    rw [if_pos rfl, Int.toNat_natCast]
    exact hbit

/-- Witness for C10: collapsing corner cell `0` of a fresh 2×2 grid with
draw `1/2` assigns a tile that was possible there. -/
theorem C10_collapse_picks_member_witness :
    bitsCount ((resetState 2 2).wave 0) ≠ 0 ∧
    ((resetState 2 2).wave 0).testBit
      ((collapseCell (resetState 2 2) 0 ⟨1, 2⟩).1.collapsed 0).toNat = true :=
  ⟨by decide, (C10_collapse_picks_member (resetState 2 2) 0 ⟨1, 2⟩ (by decide)).2.2⟩

/-- Claim C7: confirmed.  `_pickLowestEntropy` returns `-1` exactly when some
un-collapsed cell of the row-major scan has a zero possibility count, `-2`
exactly when every cell is collapsed, and otherwise indexes the row-major
list of cells tied at the minimum count uniformly by the scaled draw. -/
theorem C7_selection_spec (s : GridState) (rand : Frac) (hrand : rand.isUnit01) :
    (pickLowestEntropy s rand = -1 ↔
      ∃ i ∈ List.range s.size, s.collapsed i = -1 ∧ bitsCount (s.wave i) = 0) ∧
    (pickLowestEntropy s rand = -2 ↔ ∀ i ∈ List.range s.size, s.collapsed i ≠ -1) ∧
    (∀ m, minCnt s (List.range s.size) = some m →
      (∀ j ∈ List.range s.size, s.collapsed j = -1 → bitsCount (s.wave j) ≠ 0) →
      pickLowestEntropy s rand =
        ((tiesOf s (List.range s.size) m).getD
          ((rand.mul (Frac.ofInt (tiesOf s (List.range s.size) m).length)).floor).toNat
          0 : Int) ∧
      (pickLowestEntropy s rand).toNat ∈ tiesOf s (List.range s.size) m ∧
      (∀ j, j ∈ tiesOf s (List.range s.size) m ↔
        j ∈ List.range s.size ∧ s.collapsed j = -1 ∧ bitsCount (s.wave j) = m) ∧
      (∀ j ∈ List.range s.size, s.collapsed j = -1 → m ≤ bitsCount (s.wave j))) := by
  rcases pickLowestEntropy_cases s rand with ⟨h1, hz⟩ | ⟨h1, hall, hmc⟩ |
    ⟨m0, hm0, hnz0, hne0, h1⟩
  · refine ⟨⟨fun _ => hz, fun _ => h1⟩, ⟨?_, ?_⟩, ?_⟩
    · intro hh
      rw [h1] at hh
      exact absurd hh (by decide)
    · intro hall'
      obtain ⟨i, hi, hic, _⟩ := hz
      exact absurd hic (hall' i hi)
    · intro m _ hnz
      obtain ⟨i, hi, hic, hi0⟩ := hz
      exact absurd hi0 (hnz i hi hic)
  · refine ⟨⟨?_, ?_⟩, ⟨fun _ => hall, fun _ => h1⟩, ?_⟩
    · intro hh
      rw [h1] at hh
      exact absurd hh (by decide)
    · rintro ⟨i, hi, hic, _⟩
      exact absurd hic (hall i hi)
    · intro m hm _
      rw [hmc] at hm
      exact Option.noConfusion hm
  · have hval : 0 ≤ pickLowestEntropy s rand := by
      rw [h1]
      exact Int.natCast_nonneg _
    refine ⟨⟨?_, ?_⟩, ⟨?_, ?_⟩, ?_⟩
    · intro hh
      rw [hh] at hval
      omega
    · rintro ⟨i, hi, hic, hi0⟩
      exact absurd hi0 (hnz0 i hi hic)
    · intro hh
      rw [hh] at hval
      omega
    · intro hall'
      rcases hlne : tiesOf s (List.range s.size) m0 with _ | ⟨j, tl⟩
      · exact absurd hlne hne0
      · have hjm : j ∈ tiesOf s (List.range s.size) m0 := by
          rw [hlne]
          exact List.mem_cons_self _ _
        obtain ⟨hjr, hjc, _⟩ := mem_tiesOf.mp hjm
        exact absurd hjc (hall' j hjr)
    · intro m hm hnz
      rw [hm0] at hm
      injection hm with hmm
      subst hmm
      have hlen : 0 < (tiesOf s (List.range s.size) m0).length := List.length_pos.mpr hne0
      have hidx := floor_mul_len_lt hrand hlen
      have hget := List.getD_eq_get (tiesOf s (List.range s.size) m0) 0 hidx
      refine ⟨h1, ?_, fun j => mem_tiesOf, ?_⟩
      · rw [h1, hget, Int.toNat_natCast]
        exact List.get_mem _ _ hidx
      · exact (minCnt_le s (List.range s.size) none m0 hm0).2

/-- Witness for C7: on a fresh 2×2 grid with draw `1/3`, the solved signal
`-2` is equivalent to every cell being collapsed. -/
theorem C7_selection_spec_witness :
    (⟨1, 3⟩ : Frac).isUnit01 ∧
    (pickLowestEntropy (resetState 2 2) ⟨1, 3⟩ = -2 ↔
      ∀ i ∈ List.range (resetState 2 2).size, (resetState 2 2).collapsed i ≠ -1) :=
  ⟨by decide, (C7_selection_spec (resetState 2 2) ⟨1, 3⟩ (by decide)).2.1⟩

/-- Claim C9: confirmed.  Every run started on an un-collapsed in-range cell
yields a finite, non-empty event sequence whose last event is terminal
(`done` or `contradiction`) and whose other events are all non-terminal. -/
theorem C9_run_terminal_events (s0 : GridState) (start : Nat) (rng : Nat → Frac)
    (hrng : ValidRng rng) (hwf : WFWaves s0) (hinv : InvS s0)
    (hstart : s0.collapsed start = -1) (hslt : start < s0.size) :
    runEvents s0 start rng ≠ [] ∧
    (∃ e, (runEvents s0 start rng).getLast? = some e ∧ isTerminal e = true) ∧
    (∀ e ∈ (runEvents s0 start rng).dropLast, isTerminal e = false) := by
  obtain ⟨hne, ⟨e, hle, hter⟩, hdrop, _, _⟩ :=
    runSimT_spec s0 start rng hrng hwf hinv hstart hslt
  refine ⟨?_, ⟨e.1, ?_, hter⟩, ?_⟩
  · intro hnil
    unfold runEvents at hnil
    exact hne (List.map_eq_nil_iff.mp hnil)
  · unfold runEvents
    rw [List.getLast?_map, hle]
    rfl
  · intro e' he'
    unfold runEvents at he'
    rw [← List.map_dropLast] at he'
    obtain ⟨p, hp, hpe⟩ := List.mem_map.mp he'
    rw [← hpe]
    exact hdrop p hp

set_option maxRecDepth 100000 in
/-- Witness for C9: the 1×1 run with the constant zero draw. -/
theorem C9_run_terminal_events_witness :
    (resetState 1 1).collapsed 0 = -1 ∧ 0 < (resetState 1 1).size ∧
    runEvents (resetState 1 1) 0 (fun _ => ⟨0, 1⟩) ≠ [] :=
  ⟨by decide, by decide,
    (C9_run_terminal_events (resetState 1 1) 0 (fun _ => ⟨0, 1⟩) constZero_valid
      (resetState_WF 1 1) (resetState_Inv 1 1) (by decide) (by decide)).1⟩

/-- Claim C4: confirmed.  Along the state trace of one run (the start state
followed by the state at each yielded event), once a cell carries a collapsed
tile index `t ≠ -1` at some point of the trace, every later trace state
carries the same index, its possibility set is exactly the singleton mask
of `t`, and its entropy stays `1`. -/
theorem C4_collapsed_cell_frozen (s0 : GridState) (start : Nat) (rng : Nat → Frac)
    (hrng : ValidRng rng) (hwf : WFWaves s0) (hinv : InvS s0)
    (hstart : s0.collapsed start = -1) (hslt : start < s0.size)
    (p q : Nat) (hp : p < (s0 :: (runSimT s0 start rng).map Prod.snd).length)
    (hq : q < (s0 :: (runSimT s0 start rng).map Prod.snd).length) (hpq : p ≤ q)
    (i : Nat) (t : Int) (ht : t ≠ -1)
    (hcol : ((s0 :: (runSimT s0 start rng).map Prod.snd).get ⟨p, hp⟩).collapsed i = t) :
    ((s0 :: (runSimT s0 start rng).map Prod.snd).get ⟨q, hq⟩).collapsed i = t ∧
    ((s0 :: (runSimT s0 start rng).map Prod.snd).get ⟨q, hq⟩).wave i = 2 ^ t.toNat ∧
    getEntropy ((s0 :: (runSimT s0 start rng).map Prod.snd).get ⟨q, hq⟩) i = 1 := by
  obtain ⟨_, _, _, hchain, hall⟩ := runSimT_spec s0 start rng hrng hwf hinv hstart hslt
  have hrel := chain'_StepRel_get hchain hp hq hpq
  have hInvAll : ∀ st ∈ s0 :: (runSimT s0 start rng).map Prod.snd, InvS st := by
    intro st hst
    rcases List.mem_cons.mp hst with rfl | hst2
    · exact hinv
    · exact (hall st hst2).2.1
  have hInvP := hInvAll _ (List.get_mem (s0 :: (runSimT s0 start rng).map Prod.snd) p hp)
  have hcne : ((s0 :: (runSimT s0 start rng).map Prod.snd).get ⟨p, hp⟩).collapsed i ≠ -1 := by
    rw [hcol]
    exact ht
  obtain ⟨hqc, hqw⟩ := hrel.1 i hcne
  obtain ⟨_, hlt, hwave⟩ := hInvP i hcne
  rw [hcol] at hlt hwave
  refine ⟨by rw [hqc, hcol], by rw [hqw, hwave], ?_⟩
  unfold getEntropy
  rw [hqw, hwave]
  exact bitsCount_two_pow hlt

set_option maxRecDepth 100000 in
/-- Witness for C4: in the 1×1 run with the constant zero draw, the single
cell is Sea (`0`) from the first event's state (index 1 of the trace) through
the final state (index 3). -/
theorem C4_collapsed_cell_frozen_witness :
    (resetState 1 1).collapsed 0 = -1 ∧ 0 < (resetState 1 1).size ∧ (0 : Int) ≠ -1 ∧
    ((resetState 1 1 :: (runSimT (resetState 1 1) 0 (fun _ => ⟨0, 1⟩)).map Prod.snd).get
        ⟨1, by decide⟩).collapsed 0 = 0 ∧
    ((resetState 1 1 :: (runSimT (resetState 1 1) 0 (fun _ => ⟨0, 1⟩)).map Prod.snd).get
        ⟨3, by decide⟩).collapsed 0 = 0 :=
  ⟨by decide, by decide, by decide, by decide,
    (C4_collapsed_cell_frozen (resetState 1 1) 0 (fun _ => ⟨0, 1⟩) constZero_valid
      (resetState_WF 1 1) (resetState_Inv 1 1) (by decide) (by decide) 1 3 (by decide)
      (by decide) (by decide) 0 0 (by decide) (by decide)).1⟩

/-- Claim C5: confirmed.  On a fresh grid every boundary cell has all house
tiles removed from its possibility set; throughout any run the set never
regains a house tile, and the cell never collapses to a house tile. -/
theorem C5_boundary_never_house (w h start : Nat) (rng : Nat → Frac) (hrng : ValidRng rng)
    (hslt : start < (resetState w h).size) (i : Nat) (hi : i < w * h)
    (hb : i % w = 0 ∨ i / w = 0 ∨ i % w = w - 1 ∨ i / w = h - 1) :
    (∀ t, (tileAtIdx t).terrain = Terrain.house →
      ((resetState w h).wave i).testBit t = false) ∧
    ∀ st ∈ resetState w h :: (runSimT (resetState w h) start rng).map Prod.snd,
      (∀ t, (tileAtIdx t).terrain = Terrain.house → (st.wave i).testBit t = false) ∧
      (st.collapsed i ≠ -1 → (tileAtIdx (st.collapsed i).toNat).terrain ≠ Terrain.house) := by
  have hinit : ∀ t, (tileAtIdx t).terrain = Terrain.house →
      ((resetState w h).wave i).testBit t = false := by
    intro t ht
    rw [resetState_wave w h i hi, if_pos hb]
    exact house_testBit_boundary_mask ht
  obtain ⟨_, _, _, _, hall⟩ := runSimT_spec (resetState w h) start rng hrng
    (resetState_WF w h) (resetState_Inv w h) ((resetState_fields w h).2.2.1 start) hslt
  refine ⟨hinit, ?_⟩
  intro st hst
  have hbits : ∀ t, (tileAtIdx t).terrain = Terrain.house →
      (st.wave i).testBit t = false := by
    intro t ht
    rcases List.mem_cons.mp hst with rfl | hst2
    · exact hinit t ht
    · obtain ⟨_, _, hshr, _, _, _⟩ := hall st hst2
      cases hbt : (st.wave i).testBit t with
      | false => rfl
      | true =>
        exact absurd (hshr i t hbt)
          (by rw [hinit t ht]; exact fun hx => Bool.noConfusion hx)
  refine ⟨hbits, ?_⟩
  intro hc hterr
  have hInv : InvS st := by
    rcases List.mem_cons.mp hst with rfl | hst2
    · exact resetState_Inv w h
    · exact (hall st hst2).2.1
  obtain ⟨_, _, hwave⟩ := hInv i hc
  have hbit : (st.wave i).testBit (st.collapsed i).toNat = true := by
    rw [hwave]
    exact Nat.testBit_two_pow_self
  exact absurd hbit (by rw [hbits _ hterr]; exact fun hx => Bool.noConfusion hx)

/-- Witness for C5: corner cell `0` of a 3×3 grid, run started at cell `0`
under the constant zero draw: house tile `12` is not possible initially. -/
theorem C5_boundary_never_house_witness :
    0 < (resetState 3 3).size ∧ 0 < 3 * 3 ∧
    (0 % 3 = 0 ∨ 0 / 3 = 0 ∨ 0 % 3 = 3 - 1 ∨ 0 / 3 = 3 - 1) ∧
    (tileAtIdx 12).terrain = Terrain.house ∧
    ((resetState 3 3).wave 0).testBit 12 = false :=
  ⟨by decide, by decide, by decide, by decide,
    (C5_boundary_never_house 3 3 0 (fun _ => ⟨0, 1⟩) constZero_valid (by decide) 0
      (by decide) (by decide)).1 12 (by decide)⟩

set_option maxRecDepth 4000000 in
set_option maxHeartbeats 4000000 in
/-- Claim C1: refuted — the code diverges from the spec here.  The recorded
3×3 run ends with `done`; its final state has the centre cell `4` collapsed
to tile `12`, a House tile, while its 8-cell Moore neighbourhood
`[0, 1, 2, 3, 5, 6, 7, 8]` mixes Sea (tile `0`, at cells 1 and 2) and Ground
(tile `1`, elsewhere) — two different terrain categories. -/
theorem C1_house_uniformity_refuted :
    (exRun.getLast?.map fun p =>
        (p.1, (List.range 9).map p.2.collapsed, allNeighbours p.2 4))
      = some (WEvent.done, [1, 0, 0, 1, 12, 1, 1, 1, 1], [0, 1, 2, 3, 5, 6, 7, 8]) ∧
    (tileAtIdx 12).terrain = Terrain.house ∧
    (tileAtIdx 0).terrain = Terrain.sea ∧
    (tileAtIdx 1).terrain = Terrain.ground ∧
    Terrain.sea ≠ Terrain.ground := by
  decide

set_option maxRecDepth 4000000 in
set_option maxHeartbeats 4000000 in
/-- Claim C2: refuted — the code diverges from the spec here.  In the final
state of the recorded 3×3 `done` run, cells `1` and `4` are cardinally
adjacent and collapsed to Sea (tile `0`) and House z0 (tile `12`), yet
`cardinalCompatible` rejects the (Sea, House) direction of the pair: the
symmetric compatibility property fails on a finished run. -/
theorem C2_cardinal_compat_refuted :
    (exRun.getLast?.map fun p =>
        (p.1, p.2.collapsed 1, p.2.collapsed 4, cardinalNeighbours p.2 1))
      = some (WEvent.done, 0, 12, [0, 2, 4]) ∧
    cardinalCompatible (tileAtIdx 0) (tileAtIdx 12) = false ∧
    cardinalCompatible (tileAtIdx 12) (tileAtIdx 0) = true ∧
    (tileAtIdx 0).terrain = Terrain.sea ∧
    (tileAtIdx 12).terrain = Terrain.house := by
  decide

end WFC
